import Mathlib

/-!
# Orbital elements and Cartesian state vectors

A verification development for `OrbitalEle_CoorVol_Trans.c`: the Newton solver of
Kepler's equation (`SolveKepler`) and the two conversions `OrbElem2CoorVol` and
`CoorVol2OrbElem`.

The C `double` is read as a real number: every definition below is the exact-real
reading of its source lines, and every statement is a statement about exact real
arithmetic.  Rounding, overflow, underflow, signed zeros, infinities and NaN are not
part of this reading, so nothing below bounds what the double-precision program
does where these matter (cancellation in `1 - e * e` and in the eccentricity
radicand, the `1e-12` loop test against the spacing of doubles, `a * a * a` beyond
the range of doubles).  The `do ... while` loop of `SolveKepler` is embedded with an
explicit iteration budget (`fuel`); "the solver returns `E`" means that some budget
yields `some E`, and "the solver does not return" that every budget yields `none`.

Library functions are read as their real counterparts: `sqrt` as `Real.sqrt`,
`acos` as `Real.arccos`, `sin` and `cos` as `Real.sin` and `Real.cos`, `atan2` as
the principal argument.  Where C would produce an infinity or a NaN (a division by
zero, the square root of a negative number) the real counterparts return a
conventional value; the statements below carry hypotheses under which none of
these cases arises.  Where a claim is about these cases themselves, the locals of
`CoorVol2OrbElem` are named (`stateR`, `stateA`, `stateE`, ...), the predicate
`CoorVol2OrbElemDefined` lists what the exact-real reading needs, and
`CoorVol2OrbElemChecked` returns `none` where it fails.

The last section holds the claims that are settled in this reading; the section
before it holds exact-real statements about properties whose wording concerns the
double-precision results (tolerances, exact zeros), which this reading does not
reach.
-/

namespace CelestialMechanics

/-- The record `OrbElem` of the header: the six classical orbital elements. -/
structure OrbElem where
  a : ℝ
  e : ℝ
  i : ℝ
  Omega : ℝ
  omega : ℝ
  M : ℝ

/-- The record `CoorVol` of the header: Cartesian position and velocity. -/
structure CoorVol where
  x : ℝ
  y : ℝ
  z : ℝ
  vx : ℝ
  vy : ℝ
  vz : ℝ

/-- The C library function `atan2 (y, x)` away from the origin: the angle in
`(-π, π]` of the point `(x, y)`, which is the principal argument of `x + y i`.  At
the origin the C value depends on the signs of the two zeros (`0` or `±π`), which
real numbers do not carry; the value `0` taken here is a convention, and no claim
below rests on it. -/
noncomputable def atan2 (y x : ℝ) : ℝ := Complex.arg ⟨x, y⟩

/-- One pass through the body of the loop of `SolveKepler` (line 23): the Newton
update of the iterate `E0`. -/
noncomputable def newtonStep (M e E0 : ℝ) : ℝ :=
  E0 - (E0 - e * Real.sin E0 - M) / (1 - e * Real.cos E0)

/-- The loop `do { E0 = E; E = ...; } while (fabs(E - E0) > 1e-12)` of
`SolveKepler`, entered with current value `E0`, run for at most `fuel` passes, in
the exact-real reading.  Whether the double-precision loop stops also depends on the
spacing of doubles near the iterates, which this reading does not model. -/
noncomputable def SolveKeplerLoop : ℕ → ℝ → ℝ → ℝ → Option ℝ
  | 0, _, _, _ => none
  | fuel + 1, M, e, E0 =>
    let E := E0 - (E0 - e * Real.sin E0 - M) / (1 - e * Real.cos E0)
    if |E - E0| > 1e-12 then SolveKeplerLoop fuel M e E else some E

/-- The function `SolveKepler (M, e)`: the loop started at `E = 0`. -/
noncomputable def SolveKepler (fuel : ℕ) (M e : ℝ) : Option ℝ :=
  SolveKeplerLoop fuel M e 0

/-- The function `CoorVol2OrbElem` in the exact-real reading, with the global `mu`
passed explicitly. -/
noncomputable def CoorVol2OrbElem (mu : ℝ) (coor : CoorVol) : OrbElem :=
  let x := coor.x
  let y := coor.y
  let z := coor.z
  let vx := coor.vx
  let vy := coor.vy
  let vz := coor.vz
  let r := Real.sqrt (x * x + y * y + z * z)
  let v := Real.sqrt (vx * vx + vy * vy + vz * vz)
  let a := 1 / (2 / r - v * v / mu)
  let n := Real.sqrt (mu / (a * a * a))
  let Hx := y * vz - z * vy
  let Hy := z * vx - x * vz
  let Hz := x * vy - y * vx
  let h := Real.sqrt (Hx * Hx + Hy * Hy + Hz * Hz)
  let e := Real.sqrt (1 - h * h / mu / a)
  let cosE := (1 - r / a) / e
  let sinE := (x * vx + y * vy + z * vz) / (a * a * n * e)
  let E := atan2 sinE cosE
  let M := E - e * Real.sin E
  let i := Real.arccos (Hz / h)
  let Omega := atan2 Hx (-Hy)
  let Pz := Real.cos E * z / r - Real.sin E * vz / n / a
  let Qz := (Real.sin E * z / r + (Real.cos E - e) * vz / (n * a)) / Real.sqrt (1 - e * e)
  let omega := atan2 Pz Qz
  { a := a, e := e, i := i, Omega := Omega, omega := omega, M := M }

/-- The local `E` of `CoorVol2OrbElem` (lines 45 to 56): the eccentric anomaly
recomputed from the state vector. -/
noncomputable def eccentricAnomalyOf (mu : ℝ) (coor : CoorVol) : ℝ :=
  let x := coor.x
  let y := coor.y
  let z := coor.z
  let vx := coor.vx
  let vy := coor.vy
  let vz := coor.vz
  let r := Real.sqrt (x * x + y * y + z * z)
  let v := Real.sqrt (vx * vx + vy * vy + vz * vz)
  let a := 1 / (2 / r - v * v / mu)
  let n := Real.sqrt (mu / (a * a * a))
  let Hx := y * vz - z * vy
  let Hy := z * vx - x * vz
  let Hz := x * vy - y * vx
  let h := Real.sqrt (Hx * Hx + Hy * Hy + Hz * Hz)
  let e := Real.sqrt (1 - h * h / mu / a)
  let cosE := (1 - r / a) / e
  let sinE := (x * vx + y * vy + z * vz) / (a * a * n * e)
  atan2 sinE cosE

/-- Lines 85 to 116 of `OrbElem2CoorVol` in the exact-real reading: the state vector
computed from the elements once the eccentric anomaly `E` is known, with the global
`mu` passed explicitly. -/
noncomputable def OrbElem2CoorVolBody (mu : ℝ) (orb : OrbElem) (E : ℝ) : CoorVol :=
  let a := orb.a
  let e := orb.e
  let i := orb.i
  let Omega := orb.Omega
  let omega := orb.omega
  let r := a * (1 - e * Real.cos E)
  let cO := Real.cos Omega
  let sO := Real.sin Omega
  let co := Real.cos omega
  let so := Real.sin omega
  let ci := Real.cos i
  let si := Real.sin i
  let t00 := cO * co - sO * so * ci
  let t01 := - cO * so - sO * co * ci
  let t02 := sO * si
  let t10 := sO * co + cO * so * ci
  let t11 := - sO * so + cO * co * ci
  let t12 := - cO * si
  let t20 := so * si
  let t21 := co * si
  let t22 := ci
  let x0 := a * (Real.cos E - e)
  let y0 := a * Real.sqrt (1 - e * e) * Real.sin E
  let z0 := 0
  let vx0 := - Real.sqrt (mu / (a * (1 - e * e))) * y0 / r
  let vy0 := Real.sqrt (mu / (a * (1 - e * e))) * (e + x0 / r)
  let vz0 := 0
  let x := t00 * x0 + t01 * y0 + t02 * z0
  let y := t10 * x0 + t11 * y0 + t12 * z0
  let z := t20 * x0 + t21 * y0 + t22 * z0
  let vx := t00 * vx0 + t01 * vy0 + t02 * vz0
  let vy := t10 * vx0 + t11 * vy0 + t12 * vz0
  let vz := t20 * vx0 + t21 * vy0 + t22 * vz0
  { x := x, y := y, z := z, vx := vx, vy := vy, vz := vz }

/-- The function `OrbElem2CoorVol`: line 84 calls the solver, the rest of the body
uses its result. -/
noncomputable def OrbElem2CoorVol (fuel : ℕ) (mu : ℝ) (orb : OrbElem) : Option CoorVol :=
  match SolveKepler fuel orb.M orb.e with
  | none => none
  | some E => some (OrbElem2CoorVolBody mu orb E)

/-- The residual of Kepler's equation at `E`. -/
noncomputable def keplerResidual (M e E : ℝ) : ℝ := E - e * Real.sin E - M

/-- The local `r` of `OrbElem2CoorVol` (line 85): the distance from the focus. -/
noncomputable def perifocalR (orb : OrbElem) (E : ℝ) : ℝ :=
  orb.a * (1 - orb.e * Real.cos E)

/-- The local `x0` of `OrbElem2CoorVol` (line 100). -/
noncomputable def perifocalX0 (orb : OrbElem) (E : ℝ) : ℝ :=
  orb.a * (Real.cos E - orb.e)

/-- The local `y0` of `OrbElem2CoorVol` (line 101). -/
noncomputable def perifocalY0 (orb : OrbElem) (E : ℝ) : ℝ :=
  orb.a * Real.sqrt (1 - orb.e * orb.e) * Real.sin E

/-- The local `vx0` of `OrbElem2CoorVol` (line 103). -/
noncomputable def perifocalVx0 (mu : ℝ) (orb : OrbElem) (E : ℝ) : ℝ :=
  - Real.sqrt (mu / (orb.a * (1 - orb.e * orb.e))) * perifocalY0 orb E / perifocalR orb E

/-- The local `vy0` of `OrbElem2CoorVol` (line 104). -/
noncomputable def perifocalVy0 (mu : ℝ) (orb : OrbElem) (E : ℝ) : ℝ :=
  Real.sqrt (mu / (orb.a * (1 - orb.e * orb.e))) * (orb.e + perifocalX0 orb E / perifocalR orb E)

/-- The divisor of the Newton update of `SolveKepler` (line 23). -/
noncomputable def newtonDivisor (e E0 : ℝ) : ℝ := 1 - e * Real.cos E0

/-- The local `r` of `CoorVol2OrbElem` (line 45): the length of the position. -/
noncomputable def stateR (coor : CoorVol) : ℝ :=
  Real.sqrt (coor.x * coor.x + coor.y * coor.y + coor.z * coor.z)

/-- The local `v` of `CoorVol2OrbElem` (line 46): the speed. -/
noncomputable def stateV (coor : CoorVol) : ℝ :=
  Real.sqrt (coor.vx * coor.vx + coor.vy * coor.vy + coor.vz * coor.vz)

/-- The local `a` of `CoorVol2OrbElem` (line 47): the semimajor axis. -/
noncomputable def stateA (mu : ℝ) (coor : CoorVol) : ℝ :=
  1 / (2 / stateR coor - stateV coor * stateV coor / mu)

/-- The local `n` of `CoorVol2OrbElem` (line 48): the mean motion, in the exact-real
reading (no overflow of `a * a * a`). -/
noncomputable def stateN (mu : ℝ) (coor : CoorVol) : ℝ :=
  Real.sqrt (mu / (stateA mu coor * stateA mu coor * stateA mu coor))

/-- The local `Hx` of `CoorVol2OrbElem` (line 49). -/
def stateHx (coor : CoorVol) : ℝ := coor.y * coor.vz - coor.z * coor.vy

/-- The local `Hy` of `CoorVol2OrbElem` (line 50). -/
def stateHy (coor : CoorVol) : ℝ := coor.z * coor.vx - coor.x * coor.vz

/-- The local `Hz` of `CoorVol2OrbElem` (line 51). -/
def stateHz (coor : CoorVol) : ℝ := coor.x * coor.vy - coor.y * coor.vx

/-- The local `h` of `CoorVol2OrbElem` (line 52): the length of the angular
momentum. -/
noncomputable def stateH (coor : CoorVol) : ℝ :=
  Real.sqrt (stateHx coor * stateHx coor + stateHy coor * stateHy coor
    + stateHz coor * stateHz coor)

/-- The argument of the square root of line 53, whose root is the eccentricity, in
the exact-real reading (no rounding of `h * h / mu / a`). -/
noncomputable def stateRadicand (mu : ℝ) (coor : CoorVol) : ℝ :=
  1 - stateH coor * stateH coor / mu / stateA mu coor

/-- The local `e` of `CoorVol2OrbElem` (line 53): the eccentricity. -/
noncomputable def stateE (mu : ℝ) (coor : CoorVol) : ℝ :=
  Real.sqrt (stateRadicand mu coor)

/-- The scalar product of position and velocity, the numerator of `sinE`
(line 55). -/
def stateDot (coor : CoorVol) : ℝ :=
  coor.x * coor.vx + coor.y * coor.vy + coor.z * coor.vz

/-- The exact-real reading of `CoorVol2OrbElem` is defined at a state: every
division of lines 47 to 61 has a nonzero divisor (`r`, `mu`, `2/r - v²/mu`, `a³`,
`a`, `e`, `a² n e`, `h`, `n`, `n a`, `√(1 - e²)`), every square root a nonnegative
argument and `acos` an argument in `[-1, 1]`, all taken as exact real numbers.  This
is the domain of the exact-real reading, not of the double-precision program, whose
rounded locals can vanish or change sign where the exact ones do not. -/
def CoorVol2OrbElemDefined (mu : ℝ) (coor : CoorVol) : Prop :=
  stateR coor ≠ 0 ∧ mu ≠ 0 ∧ 2 / stateR coor - stateV coor * stateV coor / mu ≠ 0 ∧
  stateA mu coor * stateA mu coor * stateA mu coor ≠ 0 ∧
  0 ≤ mu / (stateA mu coor * stateA mu coor * stateA mu coor) ∧
  stateA mu coor ≠ 0 ∧ 0 ≤ stateRadicand mu coor ∧ stateE mu coor ≠ 0 ∧
  stateA mu coor * stateA mu coor * stateN mu coor * stateE mu coor ≠ 0 ∧
  stateH coor ≠ 0 ∧ -1 ≤ stateHz coor / stateH coor ∧ stateHz coor / stateH coor ≤ 1 ∧
  stateN mu coor ≠ 0 ∧ stateN mu coor * stateA mu coor ≠ 0 ∧
  0 ≤ 1 - stateE mu coor * stateE mu coor ∧
  Real.sqrt (1 - stateE mu coor * stateE mu coor) ≠ 0

/-- The function `CoorVol2OrbElem` with the domain of its exact-real reading checked:
the elements where that reading is defined, `none` where an exact divisor is zero or
an exact argument leaves the domain of `sqrt` or `acos`. -/
noncomputable def CoorVol2OrbElemChecked (mu : ℝ) (coor : CoorVol) : Option OrbElem :=
  haveI := Classical.propDecidable (CoorVol2OrbElemDefined mu coor)
  if CoorVol2OrbElemDefined mu coor then some (CoorVol2OrbElem mu coor) else none

/-- The matrix `t` of `OrbElem2CoorVol` (lines 94 to 98). -/
noncomputable def rotationT (orb : OrbElem) : Matrix (Fin 3) (Fin 3) ℝ :=
  !![Real.cos orb.Omega * Real.cos orb.omega
        - Real.sin orb.Omega * Real.sin orb.omega * Real.cos orb.i,
      - Real.cos orb.Omega * Real.sin orb.omega
        - Real.sin orb.Omega * Real.cos orb.omega * Real.cos orb.i,
      Real.sin orb.Omega * Real.sin orb.i;
     Real.sin orb.Omega * Real.cos orb.omega
        + Real.cos orb.Omega * Real.sin orb.omega * Real.cos orb.i,
      - Real.sin orb.Omega * Real.sin orb.omega
        + Real.cos orb.Omega * Real.cos orb.omega * Real.cos orb.i,
      - Real.cos orb.Omega * Real.sin orb.i;
     Real.sin orb.omega * Real.sin orb.i,
      Real.cos orb.omega * Real.sin orb.i,
      Real.cos orb.i]

/-- The elementary rotation about the z axis by the angle `θ`, as the specification
names it (step 4 of the conversion from elements to state). -/
noncomputable def specRotationZ (θ : ℝ) : Matrix (Fin 3) (Fin 3) ℝ :=
  !![Real.cos θ, - Real.sin θ, 0;
     Real.sin θ, Real.cos θ, 0;
     0, 0, 1]

/-- The elementary rotation about the x axis by the angle `θ`, as the specification
names it (step 4 of the conversion from elements to state). -/
noncomputable def specRotationX (θ : ℝ) : Matrix (Fin 3) (Fin 3) ℝ :=
  !![1, 0, 0;
     0, Real.cos θ, - Real.sin θ;
     0, Real.sin θ, Real.cos θ]

/-- The composition of the three Euler rotations in the words of the specification:
argument of periapsis about z, then inclination about x, then longitude of the
ascending node about z. -/
noncomputable def specEulerRotation (Omega i omega : ℝ) : Matrix (Fin 3) (Fin 3) ℝ :=
  specRotationZ Omega * specRotationX i * specRotationZ omega

/-! ## The solver -/

/-- One pass of the loop: the update, then the test of line 24. -/
theorem SolveKeplerLoop_succ (fuel : ℕ) (M e E0 : ℝ) :
    SolveKeplerLoop (fuel + 1) M e E0 =
      if |newtonStep M e E0 - E0| > 1e-12 then SolveKeplerLoop fuel M e (newtonStep M e E0)
      else some (newtonStep M e E0) := rfl

/-- A returned value is the Newton update of the previous iterate, and the two
are within the tolerance of the loop test. -/
theorem SolveKeplerLoop_some {fuel : ℕ} {M e E0 E : ℝ}
    (h : SolveKeplerLoop fuel M e E0 = some E) :
    ∃ Ep : ℝ, E = newtonStep M e Ep ∧ |E - Ep| ≤ 1e-12 := by
  induction fuel generalizing E0 with
  | zero => simp [SolveKeplerLoop] at h
  | succ k ih =>
    rw [SolveKeplerLoop_succ] at h
    by_cases hc : |newtonStep M e E0 - E0| > 1e-12
    · rw [if_pos hc] at h
      exact ih h
    · rw [if_neg hc] at h
      have hE : newtonStep M e E0 = E := Option.some.inj h
      exact ⟨E0, hE.symm, by rw [← hE]; exact not_lt.mp hc⟩

/-- More fuel does not change a result already obtained. -/
theorem SolveKeplerLoop_mono {fuel : ℕ} {M e E0 E : ℝ}
    (h : SolveKeplerLoop fuel M e E0 = some E) (k : ℕ) :
    SolveKeplerLoop (fuel + k) M e E0 = some E := by
  induction fuel generalizing E0 with
  | zero => simp [SolveKeplerLoop] at h
  | succ m ih =>
    rw [SolveKeplerLoop_succ] at h
    have hk : m + 1 + k = (m + k) + 1 := by omega
    rw [hk, SolveKeplerLoop_succ]
    by_cases hc : |newtonStep M e E0 - E0| > 1e-12
    · rw [if_pos hc] at h ⊢
      exact ih h
    · rw [if_neg hc] at h ⊢
      exact h

/-- If some iterate of the Newton map moves by at most the tolerance, the loop
returns. -/
theorem SolveKeplerLoop_of_small_step (M e : ℝ) (n : ℕ) :
    ∀ E0 : ℝ, |newtonStep M e ((newtonStep M e)^[n] E0) - (newtonStep M e)^[n] E0| ≤ 1e-12 →
      ∃ E : ℝ, SolveKeplerLoop (n + 1) M e E0 = some E := by
  induction n with
  | zero =>
    intro E0 h
    rw [Function.iterate_zero, id] at h
    refine ⟨newtonStep M e E0, ?_⟩
    rw [SolveKeplerLoop_succ, if_neg (not_lt.mpr h)]
  | succ k ih =>
    intro E0 h
    rw [SolveKeplerLoop_succ]
    by_cases hc : |newtonStep M e E0 - E0| > 1e-12
    · rw [if_pos hc]
      rw [Function.iterate_succ_apply] at h
      exact ih _ h
    · rw [if_neg hc]
      exact ⟨_, rfl⟩

/-- For `e < 1` the divisor of the Newton update is positive. -/
theorem newton_divisor_pos {e : ℝ} (he0 : 0 ≤ e) (he1 : e < 1) (E0 : ℝ) :
    0 < 1 - e * Real.cos E0 := by
  have hc : Real.cos E0 ≤ 1 := Real.cos_le_one E0
  nlinarith [mul_le_mul_of_nonneg_left hc he0]

/-- The residual of Kepler's equation after a Newton update, in terms of the
length of the update. -/
theorem keplerResidual_newtonStep (M e Ep : ℝ) (hne : 1 - e * Real.cos Ep ≠ 0) :
    keplerResidual M e (newtonStep M e Ep) =
      e * ((newtonStep M e Ep - Ep) * Real.cos Ep
        - (Real.sin (newtonStep M e Ep) - Real.sin Ep)) := by
  have hd : (newtonStep M e Ep - Ep) * (1 - e * Real.cos Ep)
      = - (Ep - e * Real.sin Ep - M) := by
    unfold newtonStep
    field_simp
    ring
  unfold keplerResidual
  linear_combination hd

/-- Second-order bound for the sine: the error of the tangent approximation over
an increment `d` with `|d| ≤ 1` is at most `d ^ 2`. -/
theorem sin_tangent_bound (x d : ℝ) (hd : |d| ≤ 1) :
    |d * Real.cos x - (Real.sin (x + d) - Real.sin x)| ≤ d ^ 2 := by
  have hcos : |Real.cos d - 1| ≤ d ^ 2 / 2 := by
    rw [abs_le]
    constructor
    · linarith [Real.one_sub_sq_div_two_le_cos (x := d)]
    · linarith [Real.cos_le_one d, sq_nonneg d]
  have hd0 : 0 ≤ |d| := abs_nonneg d
  have hsq : |d| ^ 2 = d ^ 2 := sq_abs d
  have hsin : |Real.sin d - d| ≤ d ^ 2 / 4 := by
    have hb := Real.sin_bound hd
    have h3 : |d ^ 3 / 6| = |d| ^ 3 / 6 := by
      rw [abs_div, abs_pow]; norm_num
    have hs : Real.sin d - d = (Real.sin d - (d - d ^ 3 / 6)) + (- (d ^ 3 / 6)) := by ring
    have h4 : |Real.sin d - d| ≤ |d| ^ 4 * (5 / 96) + |d| ^ 3 / 6 := by
      rw [hs]
      refine (abs_add _ _).trans ?_
      rw [abs_neg, h3]
      linarith
    have hc3 : |d| ^ 3 ≤ |d| ^ 2 := by nlinarith [pow_nonneg hd0 2]
    have hc4 : |d| ^ 4 ≤ |d| ^ 2 := by nlinarith [pow_nonneg hd0 2, pow_nonneg hd0 3]
    rw [hsq] at hc3 hc4
    linarith [sq_nonneg d]
  have hsx : |Real.sin x| ≤ 1 := Real.abs_sin_le_one x
  have hcx : |Real.cos x| ≤ 1 := Real.abs_cos_le_one x
  have hexp : d * Real.cos x - (Real.sin (x + d) - Real.sin x)
      = - (Real.sin x * (Real.cos d - 1)) + - (Real.cos x * (Real.sin d - d)) := by
    rw [Real.sin_add]; ring
  rw [hexp]
  refine (abs_add _ _).trans ?_
  rw [abs_neg, abs_neg, abs_mul, abs_mul]
  have h1 : |Real.sin x| * |Real.cos d - 1| ≤ 1 * (d ^ 2 / 2) :=
    mul_le_mul hsx hcos (abs_nonneg _) (by norm_num)
  have h2 : |Real.cos x| * |Real.sin d - d| ≤ 1 * (d ^ 2 / 4) :=
    mul_le_mul hcx hsin (abs_nonneg _) (by norm_num)
  nlinarith [sq_nonneg d]

/-- The sine is 1-Lipschitz. -/
theorem abs_sin_sub_sin_le (x y : ℝ) : |Real.sin x - Real.sin y| ≤ |x - y| := by
  rw [Real.sin_sub_sin, abs_mul, abs_mul]
  have h1 : |Real.sin ((x - y) / 2)| ≤ |(x - y) / 2| := Real.abs_sin_le_abs
  have h2 : |Real.cos ((x + y) / 2)| ≤ 1 := Real.abs_cos_le_one _
  have h3 : |(x - y) / 2| = |x - y| / 2 := by rw [abs_div]; norm_num
  rw [h3] at h1
  have h4 : (0 : ℝ) ≤ |Real.sin ((x - y) / 2)| := abs_nonneg _
  have h5 : (0 : ℝ) ≤ |Real.cos ((x + y) / 2)| := abs_nonneg _
  rw [abs_two]
  nlinarith

/-- What the solver returns solves Kepler's equation up to `e * 1e-24`. -/
theorem keplerResidual_of_returns {fuel : ℕ} {M e E0 E : ℝ} (he0 : 0 ≤ e) (he1 : e < 1)
    (h : SolveKeplerLoop fuel M e E0 = some E) :
    |keplerResidual M e E| ≤ e * 1e-24 := by
  obtain ⟨Ep, hE, hstep⟩ := SolveKeplerLoop_some h
  have hne : 1 - e * Real.cos Ep ≠ 0 := (newton_divisor_pos he0 he1 Ep).ne.symm
  have hres := keplerResidual_newtonStep M e Ep hne
  rw [← hE] at hres
  have hd1 : |E - Ep| ≤ 1 := hstep.trans (by norm_num)
  have htan := sin_tangent_bound Ep (E - Ep) hd1
  have hEE : Ep + (E - Ep) = E := by ring
  rw [hEE] at htan
  have hsq : (E - Ep) ^ 2 ≤ 1e-24 := by
    have h2 : (E - Ep) ^ 2 = |E - Ep| ^ 2 := (sq_abs _).symm
    rw [h2]
    have h0 : (0 : ℝ) ≤ |E - Ep| := abs_nonneg _
    have h3 : |E - Ep| ^ 2 ≤ (1e-12 : ℝ) ^ 2 := pow_le_pow_left₀ h0 hstep 2
    refine h3.trans ?_
    norm_num
  rw [hres, abs_mul, abs_of_nonneg he0]
  exact mul_le_mul_of_nonneg_left (htan.trans hsq) he0

/-- The length of a Newton update is at most the residual divided by `1 - e`. -/
theorem newtonStep_length {M e : ℝ} (he0 : 0 ≤ e) (he1 : e < 1) (E0 : ℝ) :
    |newtonStep M e E0 - E0| ≤ |keplerResidual M e E0| / (1 - e) := by
  have hpos := newton_divisor_pos he0 he1 E0
  have h1e : 0 < 1 - e := by linarith
  have hd : (newtonStep M e E0 - E0) * (1 - e * Real.cos E0) = - keplerResidual M e E0 := by
    unfold newtonStep keplerResidual
    field_simp
    ring
  have habs : |newtonStep M e E0 - E0| * (1 - e * Real.cos E0) = |keplerResidual M e E0| := by
    rw [← abs_neg (keplerResidual M e E0), ← hd, abs_mul, abs_of_pos hpos]
  have hle : 1 - e ≤ 1 - e * Real.cos E0 := by
    nlinarith [mul_le_mul_of_nonneg_left (Real.cos_le_one E0) he0]
  rw [le_div_iff₀ h1e, ← habs]
  exact mul_le_mul_of_nonneg_left hle (abs_nonneg _)

/-- One Newton update multiplies the residual by at most `2 e / (1 - e)`. -/
theorem keplerResidual_contract {M e : ℝ} (he0 : 0 ≤ e) (he1 : e < 1) (E0 : ℝ) :
    |keplerResidual M e (newtonStep M e E0)| ≤ 2 * e / (1 - e) * |keplerResidual M e E0| := by
  have hpos := newton_divisor_pos he0 he1 E0
  have h1e : 0 < 1 - e := by linarith
  have hres := keplerResidual_newtonStep M e E0 hpos.ne.symm
  have hA : |(newtonStep M e E0 - E0) * Real.cos E0| ≤ |newtonStep M e E0 - E0| := by
    rw [abs_mul]
    exact mul_le_of_le_one_right (abs_nonneg _) (Real.abs_cos_le_one E0)
  have hB := abs_sin_sub_sin_le (newtonStep M e E0) E0
  have hC : |(newtonStep M e E0 - E0) * Real.cos E0
      - (Real.sin (newtonStep M e E0) - Real.sin E0)| ≤ 2 * |newtonStep M e E0 - E0| := by
    refine (abs_sub _ _).trans ?_
    linarith
  have hD : |keplerResidual M e (newtonStep M e E0)| ≤ e * (2 * |newtonStep M e E0 - E0|) := by
    rw [hres, abs_mul, abs_of_nonneg he0]
    exact mul_le_mul_of_nonneg_left hC he0
  have hE := newtonStep_length (M := M) he0 he1 E0
  calc |keplerResidual M e (newtonStep M e E0)|
      ≤ e * (2 * |newtonStep M e E0 - E0|) := hD
    _ ≤ e * (2 * (|keplerResidual M e E0| / (1 - e))) := by
        apply mul_le_mul_of_nonneg_left _ he0
        linarith
    _ = 2 * e / (1 - e) * |keplerResidual M e E0| := by
        field_simp
        ring

/-- Geometric decay of the residual along the Newton iterates. -/
theorem keplerResidual_iterate {M e : ℝ} (he0 : 0 ≤ e) (he1 : e < 1) (E0 : ℝ) (n : ℕ) :
    |keplerResidual M e ((newtonStep M e)^[n] E0)|
      ≤ (2 * e / (1 - e)) ^ n * |keplerResidual M e E0| := by
  have h1e : 0 < 1 - e := by linarith
  have hq : 0 ≤ 2 * e / (1 - e) := div_nonneg (by linarith) h1e.le
  induction n with
  | zero => simp
  | succ k ih =>
    rw [Function.iterate_succ_apply', pow_succ]
    refine (keplerResidual_contract he0 he1 _).trans ?_
    calc 2 * e / (1 - e) * |keplerResidual M e ((newtonStep M e)^[k] E0)|
        ≤ 2 * e / (1 - e) * ((2 * e / (1 - e)) ^ k * |keplerResidual M e E0|) :=
          mul_le_mul_of_nonneg_left ih hq
      _ = (2 * e / (1 - e)) ^ k * (2 * e / (1 - e)) * |keplerResidual M e E0| := by ring

/-- For `e < 1/3` the loop of the solver stops, from every starting value. -/
theorem SolveKeplerLoop_terminates {M e : ℝ} (he0 : 0 ≤ e) (he1 : e < 1 / 3) (E0 : ℝ) :
    ∃ fuel : ℕ, ∃ E : ℝ, SolveKeplerLoop fuel M e E0 = some E := by
  have he1' : e < 1 := by linarith
  have h1e : 0 < 1 - e := by linarith
  have hq0 : 0 ≤ 2 * e / (1 - e) := div_nonneg (by linarith) h1e.le
  have hq1 : 2 * e / (1 - e) < 1 := by
    rw [div_lt_one h1e]; linarith
  have hC : 0 < |keplerResidual M e E0| / (1 - e) + 1 := by
    have : 0 ≤ |keplerResidual M e E0| / (1 - e) := div_nonneg (abs_nonneg _) h1e.le
    linarith
  have hx : (0 : ℝ) < 1e-12 / (|keplerResidual M e E0| / (1 - e) + 1) :=
    div_pos (by norm_num) hC
  obtain ⟨n, hn⟩ := exists_pow_lt_of_lt_one hx hq1
  refine ⟨n + 1, ?_⟩
  apply SolveKeplerLoop_of_small_step
  refine (newtonStep_length he0 he1' _).trans ?_
  have h1 := keplerResidual_iterate (M := M) he0 he1' E0 n
  have h2 : (2 * e / (1 - e)) ^ n * (|keplerResidual M e E0| / (1 - e) + 1) ≤ 1e-12 := by
    have := (lt_div_iff₀ hC).mp hn
    exact this.le
  have hqn : 0 ≤ (2 * e / (1 - e)) ^ n := pow_nonneg hq0 n
  calc |keplerResidual M e ((newtonStep M e)^[n] E0)| / (1 - e)
      ≤ (2 * e / (1 - e)) ^ n * |keplerResidual M e E0| / (1 - e) :=
        div_le_div_of_nonneg_right h1 h1e.le
    _ = (2 * e / (1 - e)) ^ n * (|keplerResidual M e E0| / (1 - e)) := by ring
    _ ≤ (2 * e / (1 - e)) ^ n * (|keplerResidual M e E0| / (1 - e) + 1) :=
        mul_le_mul_of_nonneg_left (by linarith) hqn
    _ ≤ 1e-12 := h2

/-- With `e = 0` the Newton update returns `M` from every iterate. -/
theorem newtonStep_circular (M E0 : ℝ) : newtonStep M 0 E0 = M := by
  unfold newtonStep
  simp

/-- With `e = 0` two passes of the loop are enough, from every starting value. -/
theorem SolveKeplerLoop_circular (M E0 : ℝ) (k : ℕ) :
    SolveKeplerLoop (k + 2) M 0 E0 = some M := by
  have h2 : SolveKeplerLoop 2 M 0 E0 = some M := by
    rw [SolveKeplerLoop_succ, newtonStep_circular]
    by_cases hc : |M - E0| > 1e-12
    · have hn : ¬ (|M - M| > 1e-12) := by
        rw [sub_self, abs_zero]; norm_num
      rw [if_pos hc, SolveKeplerLoop_succ, newtonStep_circular, if_neg hn]
    · rw [if_neg hc]
  have := SolveKeplerLoop_mono h2 k
  rwa [Nat.add_comm 2 k] at this

/-- With `M = 0` the starting value `0` is a fixed point of the Newton update. -/
theorem newtonStep_periapsis (e : ℝ) : newtonStep 0 e 0 = 0 := by
  unfold newtonStep
  simp

/-- With `M = 0` the loop stops after its first pass and returns `0`. -/
theorem SolveKeplerLoop_periapsis (e : ℝ) (k : ℕ) :
    SolveKeplerLoop (k + 1) 0 e 0 = some 0 := by
  have hn : ¬ (|(0 : ℝ) - 0| > 1e-12) := by
    rw [sub_self, abs_zero]; norm_num
  rw [SolveKeplerLoop_succ, newtonStep_periapsis, if_neg hn]

/-- The six results of lines 108 to 113, written with the locals of the function. -/
theorem OrbElem2CoorVolBody_fields (mu : ℝ) (orb : OrbElem) (E : ℝ) :
    (OrbElem2CoorVolBody mu orb E).x =
        (Real.cos orb.Omega * Real.cos orb.omega
          - Real.sin orb.Omega * Real.sin orb.omega * Real.cos orb.i) * perifocalX0 orb E
        + (- Real.cos orb.Omega * Real.sin orb.omega
          - Real.sin orb.Omega * Real.cos orb.omega * Real.cos orb.i) * perifocalY0 orb E ∧
    (OrbElem2CoorVolBody mu orb E).y =
        (Real.sin orb.Omega * Real.cos orb.omega
          + Real.cos orb.Omega * Real.sin orb.omega * Real.cos orb.i) * perifocalX0 orb E
        + (- Real.sin orb.Omega * Real.sin orb.omega
          + Real.cos orb.Omega * Real.cos orb.omega * Real.cos orb.i) * perifocalY0 orb E ∧
    (OrbElem2CoorVolBody mu orb E).z =
        Real.sin orb.omega * Real.sin orb.i * perifocalX0 orb E
        + Real.cos orb.omega * Real.sin orb.i * perifocalY0 orb E ∧
    (OrbElem2CoorVolBody mu orb E).vx =
        (Real.cos orb.Omega * Real.cos orb.omega
          - Real.sin orb.Omega * Real.sin orb.omega * Real.cos orb.i) * perifocalVx0 mu orb E
        + (- Real.cos orb.Omega * Real.sin orb.omega
          - Real.sin orb.Omega * Real.cos orb.omega * Real.cos orb.i) * perifocalVy0 mu orb E ∧
    (OrbElem2CoorVolBody mu orb E).vy =
        (Real.sin orb.Omega * Real.cos orb.omega
          + Real.cos orb.Omega * Real.sin orb.omega * Real.cos orb.i) * perifocalVx0 mu orb E
        + (- Real.sin orb.Omega * Real.sin orb.omega
          + Real.cos orb.Omega * Real.cos orb.omega * Real.cos orb.i) * perifocalVy0 mu orb E ∧
    (OrbElem2CoorVolBody mu orb E).vz =
        Real.sin orb.omega * Real.sin orb.i * perifocalVx0 mu orb E
        + Real.cos orb.omega * Real.sin orb.i * perifocalVy0 mu orb E := by
  simp only [OrbElem2CoorVolBody, perifocalX0, perifocalY0, perifocalVx0, perifocalVy0,
    perifocalR, mul_zero, add_zero, and_self]

/-- The rotation of lines 94 to 98 keeps the scalar product of two vectors of the
orbital plane. -/
theorem rotation_dot (O i o p q u w : ℝ) :
    ((Real.cos O * Real.cos o - Real.sin O * Real.sin o * Real.cos i) * p
        + (- Real.cos O * Real.sin o - Real.sin O * Real.cos o * Real.cos i) * q)
      * ((Real.cos O * Real.cos o - Real.sin O * Real.sin o * Real.cos i) * u
        + (- Real.cos O * Real.sin o - Real.sin O * Real.cos o * Real.cos i) * w)
    + ((Real.sin O * Real.cos o + Real.cos O * Real.sin o * Real.cos i) * p
        + (- Real.sin O * Real.sin o + Real.cos O * Real.cos o * Real.cos i) * q)
      * ((Real.sin O * Real.cos o + Real.cos O * Real.sin o * Real.cos i) * u
        + (- Real.sin O * Real.sin o + Real.cos O * Real.cos o * Real.cos i) * w)
    + (Real.sin o * Real.sin i * p + Real.cos o * Real.sin i * q)
      * (Real.sin o * Real.sin i * u + Real.cos o * Real.sin i * w)
    = p * u + q * w := by
  have hO := Real.sin_sq_add_cos_sq O
  have hi := Real.sin_sq_add_cos_sq i
  have ho := Real.sin_sq_add_cos_sq o
  linear_combination
    (p * u * (Real.cos o ^ 2 + Real.sin o ^ 2 * Real.cos i ^ 2)
      + q * w * (Real.sin o ^ 2 + Real.cos o ^ 2 * Real.cos i ^ 2)
      + (p * w + q * u) * Real.cos o * Real.sin o * (Real.cos i ^ 2 - 1)) * hO
    + (p * u + q * w) * ho
    + (p * u * Real.sin o ^ 2 + q * w * Real.cos o ^ 2
      + (p * w + q * u) * Real.cos o * Real.sin o) * hi

/-- First component of the vector product of two rotated vectors of the orbital
plane. -/
theorem rotation_cross_x (O i o p q u w : ℝ) :
   ((Real.sin O * Real.cos o + Real.cos O * Real.sin o * Real.cos i) * p
        + (- Real.sin O * Real.sin o + Real.cos O * Real.cos o * Real.cos i) * q)
    * (Real.sin o * Real.sin i * u + Real.cos o * Real.sin i * w)
   - (Real.sin o * Real.sin i * p + Real.cos o * Real.sin i * q)
    * ((Real.sin O * Real.cos o + Real.cos O * Real.sin o * Real.cos i) * u
        + (- Real.sin O * Real.sin o + Real.cos O * Real.cos o * Real.cos i) * w)
   = (p * w - q * u) * (Real.sin O * Real.sin i) := by
  have ho := Real.sin_sq_add_cos_sq o
  linear_combination (p * w - q * u) * Real.sin O * Real.sin i * ho

/-- Second component of the vector product of two rotated vectors of the orbital
plane. -/
theorem rotation_cross_y (O i o p q u w : ℝ) :
   (Real.sin o * Real.sin i * p + Real.cos o * Real.sin i * q)
    * ((Real.cos O * Real.cos o - Real.sin O * Real.sin o * Real.cos i) * u
        + (- Real.cos O * Real.sin o - Real.sin O * Real.cos o * Real.cos i) * w)
   - ((Real.cos O * Real.cos o - Real.sin O * Real.sin o * Real.cos i) * p
        + (- Real.cos O * Real.sin o - Real.sin O * Real.cos o * Real.cos i) * q)
    * (Real.sin o * Real.sin i * u + Real.cos o * Real.sin i * w)
   = (p * w - q * u) * (- (Real.cos O * Real.sin i)) := by
  have ho := Real.sin_sq_add_cos_sq o
  linear_combination (-(p * w - q * u)) * Real.cos O * Real.sin i * ho

/-- Third component of the vector product of two rotated vectors of the orbital
plane. -/
theorem rotation_cross_z (O i o p q u w : ℝ) :
   ((Real.cos O * Real.cos o - Real.sin O * Real.sin o * Real.cos i) * p
        + (- Real.cos O * Real.sin o - Real.sin O * Real.cos o * Real.cos i) * q)
    * ((Real.sin O * Real.cos o + Real.cos O * Real.sin o * Real.cos i) * u
        + (- Real.sin O * Real.sin o + Real.cos O * Real.cos o * Real.cos i) * w)
   - ((Real.sin O * Real.cos o + Real.cos O * Real.sin o * Real.cos i) * p
        + (- Real.sin O * Real.sin o + Real.cos O * Real.cos o * Real.cos i) * q)
    * ((Real.cos O * Real.cos o - Real.sin O * Real.sin o * Real.cos i) * u
        + (- Real.cos O * Real.sin o - Real.sin O * Real.cos o * Real.cos i) * w)
   = (p * w - q * u) * Real.cos i := by
  have ho := Real.sin_sq_add_cos_sq o
  have hO := Real.sin_sq_add_cos_sq O
  linear_combination (p * w - q * u) * Real.cos i * (Real.cos o ^ 2 + Real.sin o ^ 2) * hO
    + (p * w - q * u) * Real.cos i * ho

/-- For `a > 0` and `0 ≤ e < 1` the distance `r` is at least `a (1 - e)`, hence
positive. -/
theorem perifocalR_pos {orb : OrbElem} (ha : 0 < orb.a) (he0 : 0 ≤ orb.e) (he1 : orb.e < 1)
    (E : ℝ) : 0 < perifocalR orb E :=
  mul_pos ha (newton_divisor_pos he0 he1 E)

/-- The square root of line 101 squares to its radicand when `0 ≤ e < 1`. -/
theorem sqrt_one_sub_sq {e : ℝ} (he0 : 0 ≤ e) (he1 : e < 1) :
    Real.sqrt (1 - e * e) * Real.sqrt (1 - e * e) = 1 - e * e :=
  Real.mul_self_sqrt (by nlinarith)

/-- The square root of lines 103 and 104 squares to its radicand. -/
theorem sqrt_mu_div {mu a e : ℝ} (hmu : 0 < mu) (ha : 0 < a) (he0 : 0 ≤ e) (he1 : e < 1) :
    Real.sqrt (mu / (a * (1 - e * e))) * Real.sqrt (mu / (a * (1 - e * e)))
        * (a * (1 - e * e)) = mu := by
  have h1 : 0 < 1 - e * e := by nlinarith
  have h2 : 0 < a * (1 - e * e) := mul_pos ha h1
  rw [Real.mul_self_sqrt (div_nonneg hmu.le h2.le)]
  field_simp

/-- In the orbital plane the position has length `r`. -/
theorem perifocal_pos_sq {orb : OrbElem} (he0 : 0 ≤ orb.e) (he1 : orb.e < 1) (E : ℝ) :
    perifocalX0 orb E * perifocalX0 orb E + perifocalY0 orb E * perifocalY0 orb E
      = perifocalR orb E * perifocalR orb E := by
  have hβ := sqrt_one_sub_sq he0 he1
  have hcs := Real.sin_sq_add_cos_sq E
  unfold perifocalX0 perifocalY0 perifocalR
  linear_combination (orb.a ^ 2 * Real.sin E ^ 2) * hβ + orb.a ^ 2 * (1 - orb.e ^ 2) * hcs

/-- In the orbital plane the speed satisfies the vis-viva equation. -/
theorem perifocal_vel_sq {mu : ℝ} {orb : OrbElem} (hmu : 0 < mu) (ha : 0 < orb.a)
    (he0 : 0 ≤ orb.e) (he1 : orb.e < 1) (E : ℝ) :
    perifocalVx0 mu orb E * perifocalVx0 mu orb E + perifocalVy0 mu orb E * perifocalVy0 mu orb E
      = mu * (2 / perifocalR orb E - 1 / orb.a) := by
  have hβ := sqrt_one_sub_sq he0 he1
  have hk := sqrt_mu_div hmu ha he0 he1
  have hcs := Real.sin_sq_add_cos_sq E
  have hR : orb.a * (1 - orb.e * Real.cos E) ≠ 0 := (perifocalR_pos ha he0 he1 E).ne.symm
  have h1 : (1 - orb.e * Real.cos E) ≠ 0 := (newton_divisor_pos he0 he1 E).ne.symm
  have ha0 : orb.a ≠ 0 := ha.ne.symm
  unfold perifocalVx0 perifocalVy0 perifocalX0 perifocalY0 perifocalR
  generalize Real.sqrt (mu / (orb.a * (1 - orb.e * orb.e))) = k at hk ⊢
  generalize Real.sqrt (1 - orb.e * orb.e) = β at hβ ⊢
  generalize Real.sin E = s at hcs ⊢
  generalize Real.cos E = c at hcs hR h1 ⊢
  subst hk
  field_simp
  have hβ2 : β ^ 2 = 1 - orb.e ^ 2 := by rw [pow_two, pow_two]; exact hβ
  have hs2 : s ^ 2 = 1 - c ^ 2 := by linarith
  ring_nf
  simp only [hβ2, hs2]
  ring

/-- In the orbital plane the moment of the velocity is `k a (1 - e²)`, with `k` the
square root of lines 103 and 104. -/
theorem perifocal_moment {orb : OrbElem} (ha : 0 < orb.a) (he0 : 0 ≤ orb.e) (he1 : orb.e < 1)
    (mu E : ℝ) :
    perifocalX0 orb E * perifocalVy0 mu orb E - perifocalY0 orb E * perifocalVx0 mu orb E
      = Real.sqrt (mu / (orb.a * (1 - orb.e * orb.e))) * orb.a * (1 - orb.e * orb.e) := by
  have hβ := sqrt_one_sub_sq he0 he1
  have hcs := Real.sin_sq_add_cos_sq E
  have h1 : (1 - orb.e * Real.cos E) ≠ 0 := (newton_divisor_pos he0 he1 E).ne.symm
  have ha0 : orb.a ≠ 0 := ha.ne.symm
  unfold perifocalVx0 perifocalVy0 perifocalX0 perifocalY0 perifocalR
  generalize Real.sqrt (mu / (orb.a * (1 - orb.e * orb.e))) = k
  generalize Real.sqrt (1 - orb.e * orb.e) = β at hβ ⊢
  generalize Real.sin E = s at hcs ⊢
  generalize Real.cos E = c at hcs h1 ⊢
  field_simp
  have hβ2 : β ^ 2 = 1 - orb.e ^ 2 := by rw [pow_two, pow_two]; exact hβ
  have hs2 : s ^ 2 = 1 - c ^ 2 := by linarith
  ring_nf
  simp only [hβ2, hs2]
  ring

/-- In the orbital plane the scalar product of position and velocity is
`k e y0`. -/
theorem perifocal_dot {orb : OrbElem} (ha : 0 < orb.a) (he0 : 0 ≤ orb.e) (he1 : orb.e < 1)
    (mu E : ℝ) :
    perifocalX0 orb E * perifocalVx0 mu orb E + perifocalY0 orb E * perifocalVy0 mu orb E
      = Real.sqrt (mu / (orb.a * (1 - orb.e * orb.e))) * perifocalY0 orb E * orb.e := by
  have h1 : (1 - orb.e * Real.cos E) ≠ 0 := (newton_divisor_pos he0 he1 E).ne.symm
  have ha0 : orb.a ≠ 0 := ha.ne.symm
  unfold perifocalVx0 perifocalVy0 perifocalX0 perifocalY0 perifocalR
  field_simp
  ring

/-- The squared length of the generated position is `r²`. -/
theorem body_pos_sq {orb : OrbElem} (he0 : 0 ≤ orb.e) (he1 : orb.e < 1) (mu E : ℝ) :
    (OrbElem2CoorVolBody mu orb E).x * (OrbElem2CoorVolBody mu orb E).x
      + (OrbElem2CoorVolBody mu orb E).y * (OrbElem2CoorVolBody mu orb E).y
      + (OrbElem2CoorVolBody mu orb E).z * (OrbElem2CoorVolBody mu orb E).z
      = perifocalR orb E * perifocalR orb E := by
  obtain ⟨hx, hy, hz, -, -, -⟩ := OrbElem2CoorVolBody_fields mu orb E
  rw [hx, hy, hz, rotation_dot, perifocal_pos_sq he0 he1]

/-- The length of the generated position is `r`. -/
theorem body_radius {orb : OrbElem} (ha : 0 < orb.a) (he0 : 0 ≤ orb.e) (he1 : orb.e < 1)
    (mu E : ℝ) :
    Real.sqrt ((OrbElem2CoorVolBody mu orb E).x * (OrbElem2CoorVolBody mu orb E).x
      + (OrbElem2CoorVolBody mu orb E).y * (OrbElem2CoorVolBody mu orb E).y
      + (OrbElem2CoorVolBody mu orb E).z * (OrbElem2CoorVolBody mu orb E).z)
      = perifocalR orb E := by
  rw [body_pos_sq he0 he1]
  exact Real.sqrt_mul_self (perifocalR_pos ha he0 he1 E).le

/-- The squared speed of the generated state satisfies the vis-viva equation. -/
theorem body_vel_sq {mu : ℝ} {orb : OrbElem} (hmu : 0 < mu) (ha : 0 < orb.a)
    (he0 : 0 ≤ orb.e) (he1 : orb.e < 1) (E : ℝ) :
    (OrbElem2CoorVolBody mu orb E).vx * (OrbElem2CoorVolBody mu orb E).vx
      + (OrbElem2CoorVolBody mu orb E).vy * (OrbElem2CoorVolBody mu orb E).vy
      + (OrbElem2CoorVolBody mu orb E).vz * (OrbElem2CoorVolBody mu orb E).vz
      = mu * (2 / perifocalR orb E - 1 / orb.a) := by
  obtain ⟨-, -, -, hvx, hvy, hvz⟩ := OrbElem2CoorVolBody_fields mu orb E
  rw [hvx, hvy, hvz, rotation_dot, perifocal_vel_sq hmu ha he0 he1]

/-- The angular momentum of the generated state: its three components. -/
theorem body_cross {orb : OrbElem} (ha : 0 < orb.a) (he0 : 0 ≤ orb.e) (he1 : orb.e < 1)
    (mu E : ℝ) :
    (OrbElem2CoorVolBody mu orb E).y * (OrbElem2CoorVolBody mu orb E).vz
        - (OrbElem2CoorVolBody mu orb E).z * (OrbElem2CoorVolBody mu orb E).vy
      = Real.sqrt (mu / (orb.a * (1 - orb.e * orb.e))) * orb.a * (1 - orb.e * orb.e)
          * (Real.sin orb.Omega * Real.sin orb.i) ∧
    (OrbElem2CoorVolBody mu orb E).z * (OrbElem2CoorVolBody mu orb E).vx
        - (OrbElem2CoorVolBody mu orb E).x * (OrbElem2CoorVolBody mu orb E).vz
      = Real.sqrt (mu / (orb.a * (1 - orb.e * orb.e))) * orb.a * (1 - orb.e * orb.e)
          * (- (Real.cos orb.Omega * Real.sin orb.i)) ∧
    (OrbElem2CoorVolBody mu orb E).x * (OrbElem2CoorVolBody mu orb E).vy
        - (OrbElem2CoorVolBody mu orb E).y * (OrbElem2CoorVolBody mu orb E).vx
      = Real.sqrt (mu / (orb.a * (1 - orb.e * orb.e))) * orb.a * (1 - orb.e * orb.e)
          * Real.cos orb.i := by
  obtain ⟨hx, hy, hz, hvx, hvy, hvz⟩ := OrbElem2CoorVolBody_fields mu orb E
  rw [hx, hy, hz, hvx, hvy, hvz, rotation_cross_x, rotation_cross_y, rotation_cross_z,
    perifocal_moment ha he0 he1]
  exact ⟨rfl, rfl, rfl⟩

/-- The squared angular momentum of the generated state is `mu a (1 - e²)`. -/
theorem body_cross_sq {mu : ℝ} {orb : OrbElem} (hmu : 0 < mu) (ha : 0 < orb.a)
    (he0 : 0 ≤ orb.e) (he1 : orb.e < 1) (E : ℝ) :
    ((OrbElem2CoorVolBody mu orb E).y * (OrbElem2CoorVolBody mu orb E).vz
        - (OrbElem2CoorVolBody mu orb E).z * (OrbElem2CoorVolBody mu orb E).vy)
      * ((OrbElem2CoorVolBody mu orb E).y * (OrbElem2CoorVolBody mu orb E).vz
        - (OrbElem2CoorVolBody mu orb E).z * (OrbElem2CoorVolBody mu orb E).vy)
    + ((OrbElem2CoorVolBody mu orb E).z * (OrbElem2CoorVolBody mu orb E).vx
        - (OrbElem2CoorVolBody mu orb E).x * (OrbElem2CoorVolBody mu orb E).vz)
      * ((OrbElem2CoorVolBody mu orb E).z * (OrbElem2CoorVolBody mu orb E).vx
        - (OrbElem2CoorVolBody mu orb E).x * (OrbElem2CoorVolBody mu orb E).vz)
    + ((OrbElem2CoorVolBody mu orb E).x * (OrbElem2CoorVolBody mu orb E).vy
        - (OrbElem2CoorVolBody mu orb E).y * (OrbElem2CoorVolBody mu orb E).vx)
      * ((OrbElem2CoorVolBody mu orb E).x * (OrbElem2CoorVolBody mu orb E).vy
        - (OrbElem2CoorVolBody mu orb E).y * (OrbElem2CoorVolBody mu orb E).vx)
    = mu * orb.a * (1 - orb.e * orb.e) := by
  obtain ⟨h1, h2, h3⟩ := body_cross ha he0 he1 mu E
  have hk := sqrt_mu_div hmu ha he0 he1
  have hO := Real.sin_sq_add_cos_sq orb.Omega
  have hi := Real.sin_sq_add_cos_sq orb.i
  rw [h1, h2, h3]
  generalize Real.sqrt (mu / (orb.a * (1 - orb.e * orb.e))) = k at hk ⊢
  linear_combination
    (k * orb.a * (1 - orb.e * orb.e)) ^ 2 * Real.sin orb.i ^ 2 * hO
      + (k * orb.a * (1 - orb.e * orb.e)) ^ 2 * hi
      + orb.a * (1 - orb.e * orb.e) * hk

/-- What `OrbElem2CoorVol` returns is the body of the function at a value returned
by the solver. -/
theorem OrbElem2CoorVol_some {fuel : ℕ} {mu : ℝ} {orb : OrbElem} {coor : CoorVol}
    (h : OrbElem2CoorVol fuel mu orb = some coor) :
    ∃ E : ℝ, SolveKepler fuel orb.M orb.e = some E ∧ coor = OrbElem2CoorVolBody mu orb E := by
  unfold OrbElem2CoorVol at h
  cases hs : SolveKepler fuel orb.M orb.e with
  | none => rw [hs] at h; exact absurd h (by simp)
  | some E =>
    rw [hs] at h
    exact ⟨E, rfl, (Option.some.inj h).symm⟩

/-- For `e < 1/3` the function `OrbElem2CoorVol` returns. -/
theorem OrbElem2CoorVol_returns (mu : ℝ) (orb : OrbElem) (he0 : 0 ≤ orb.e)
    (he1 : orb.e < 1 / 3) :
    ∃ fuel : ℕ, ∃ coor : CoorVol, OrbElem2CoorVol fuel mu orb = some coor := by
  obtain ⟨fuel, E, hE⟩ := SolveKeplerLoop_terminates (M := orb.M) he0 he1 0
  refine ⟨fuel, OrbElem2CoorVolBody mu orb E, ?_⟩
  unfold OrbElem2CoorVol SolveKepler
  rw [hE]

/-! ## From state back to elements -/

/-- The value of `atan2` at a positive multiple of `(sin θ, cos θ)` is `θ` up to a
multiple of `2π`. -/
theorem atan2_scaled {ρ : ℝ} (hρ : 0 < ρ) (θ : ℝ) :
    ∃ k : ℤ, atan2 (ρ * Real.sin θ) (ρ * Real.cos θ) = θ + 2 * Real.pi * k := by
  have h := Complex.arg_mul_cos_add_sin_mul_I_sub hρ θ
  refine ⟨⌊(Real.pi - θ) / (2 * Real.pi)⌋, ?_⟩
  have hz : (⟨ρ * Real.cos θ, ρ * Real.sin θ⟩ : ℂ)
      = (ρ : ℂ) * (Complex.cos θ + Complex.sin θ * Complex.I) := by
    apply Complex.ext <;> simp [← Complex.ofReal_cos, ← Complex.ofReal_sin]
  unfold atan2
  rw [hz]
  linarith

/-- The value of `atan2` at `(sin θ, cos θ)` is `θ` up to a multiple of `2π`. -/
theorem atan2_unit (θ : ℝ) :
    ∃ k : ℤ, atan2 (Real.sin θ) (Real.cos θ) = θ + 2 * Real.pi * k := by
  have h := atan2_scaled one_pos θ
  rwa [one_mul, one_mul] at h

/-- The sine of `atan2 (sin θ, cos θ)` is `sin θ`. -/
theorem sin_atan2_unit (θ : ℝ) : Real.sin (atan2 (Real.sin θ) (Real.cos θ)) = Real.sin θ := by
  obtain ⟨k, hk⟩ := atan2_unit θ
  rw [hk, mul_comm (2 * Real.pi) (k : ℝ)]
  exact Real.sin_add_int_mul_two_pi θ k

/-- The cosine of `atan2 (sin θ, cos θ)` is `cos θ`. -/
theorem cos_atan2_unit (θ : ℝ) : Real.cos (atan2 (Real.sin θ) (Real.cos θ)) = Real.cos θ := by
  obtain ⟨k, hk⟩ := atan2_unit θ
  rw [hk, mul_comm (2 * Real.pi) (k : ℝ)]
  exact Real.cos_add_int_mul_two_pi θ k

/-- The value of `atan2` at a positive multiple of `(sin θ, cos θ)` is `θ` itself
when `θ` lies in `(-π, π]`. -/
theorem atan2_scaled_of_mem {ρ : ℝ} (hρ : 0 < ρ) {θ : ℝ} (h0 : -Real.pi < θ) (h1 : θ ≤ Real.pi) :
    atan2 (ρ * Real.sin θ) (ρ * Real.cos θ) = θ := by
  have h := Complex.arg_mul_cos_add_sin_mul_I hρ (show θ ∈ Set.Ioc (-Real.pi) Real.pi from ⟨h0, h1⟩)
  have hz : (⟨ρ * Real.cos θ, ρ * Real.sin θ⟩ : ℂ)
      = (ρ : ℂ) * (Complex.cos θ + Complex.sin θ * Complex.I) := by
    apply Complex.ext <;> simp [← Complex.ofReal_cos, ← Complex.ofReal_sin]
  unfold atan2
  rw [hz]
  exact h

/-- The scalar product of the generated position and velocity. -/
theorem body_dot {orb : OrbElem} (ha : 0 < orb.a) (he0 : 0 ≤ orb.e) (he1 : orb.e < 1)
    (mu E : ℝ) :
    (OrbElem2CoorVolBody mu orb E).x * (OrbElem2CoorVolBody mu orb E).vx
      + (OrbElem2CoorVolBody mu orb E).y * (OrbElem2CoorVolBody mu orb E).vy
      + (OrbElem2CoorVolBody mu orb E).z * (OrbElem2CoorVolBody mu orb E).vz
      = Real.sqrt (mu / (orb.a * (1 - orb.e * orb.e))) * perifocalY0 orb E * orb.e := by
  obtain ⟨hx, hy, hz, hvx, hvy, hvz⟩ := OrbElem2CoorVolBody_fields mu orb E
  rw [hx, hy, hz, hvx, hvy, hvz, rotation_dot, perifocal_dot ha he0 he1]

/-- The mean motion times the semimajor axis, in terms of the square roots of the
forward conversion. -/
theorem sqrt_mu_mean_motion {mu a e : ℝ} (hmu : 0 < mu) (ha : 0 < a) (he0 : 0 ≤ e)
    (he1 : e < 1) :
    Real.sqrt (mu / (a * (1 - e * e))) * Real.sqrt (1 - e * e)
      = Real.sqrt (mu / (a * a * a)) * a := by
  have h1 : 0 < 1 - e * e := by nlinarith
  have h2 : 0 < a * (1 - e * e) := mul_pos ha h1
  have h3 : 0 < a * a * a := by positivity
  have hA : Real.sqrt (mu / (a * (1 - e * e))) * Real.sqrt (1 - e * e) = Real.sqrt (mu / a) := by
    rw [← Real.sqrt_mul (div_nonneg hmu.le h2.le)]
    congr 1
    field_simp
    ring
  have hB : Real.sqrt (mu / (a * a * a)) * a = Real.sqrt (mu / a) := by
    have haa : a = Real.sqrt (a * a) := (Real.sqrt_mul_self ha.le).symm
    calc Real.sqrt (mu / (a * a * a)) * a
        = Real.sqrt (mu / (a * a * a)) * Real.sqrt (a * a) := by rw [← haa]
      _ = Real.sqrt (mu / (a * a * a) * (a * a)) :=
          (Real.sqrt_mul (div_nonneg hmu.le h3.le) _).symm
      _ = Real.sqrt (mu / a) := by
          congr 1
          field_simp
          ring
  rw [hA, hB]

/-- The moment `k a (1 - e²)` is the square root of `mu a (1 - e²)`. -/
theorem sqrt_moment {mu a e : ℝ} (hmu : 0 < mu) (ha : 0 < a) (he0 : 0 ≤ e) (he1 : e < 1) :
    Real.sqrt (mu * a * (1 - e * e))
      = Real.sqrt (mu / (a * (1 - e * e))) * a * (1 - e * e) := by
  have h1 : 0 < 1 - e * e := by nlinarith
  have hk := sqrt_mu_div hmu ha he0 he1
  have hk0 : 0 ≤ Real.sqrt (mu / (a * (1 - e * e))) := Real.sqrt_nonneg _
  rw [Real.sqrt_eq_iff_mul_self_eq (by positivity) (by positivity)]
  linear_combination (- (a * (1 - e * e))) * hk

/-- The velocity components of the orbital plane in terms of the mean motion. -/
theorem perifocal_vel_mean_motion {mu : ℝ} {orb : OrbElem} (hmu : 0 < mu) (ha : 0 < orb.a)
    (he0 : 0 ≤ orb.e) (he1 : orb.e < 1) (E : ℝ) :
    perifocalVx0 mu orb E
      = - (Real.sqrt (mu / (orb.a * orb.a * orb.a)) * orb.a * orb.a * Real.sin E)
          / perifocalR orb E ∧
    perifocalVy0 mu orb E
      = Real.sqrt (mu / (orb.a * orb.a * orb.a)) * orb.a * Real.sqrt (1 - orb.e * orb.e)
          * orb.a * Real.cos E / perifocalR orb E := by
  have hβ := sqrt_one_sub_sq he0 he1
  have hkβ := sqrt_mu_mean_motion hmu ha he0 he1
  have hR : perifocalR orb E ≠ 0 := (perifocalR_pos ha he0 he1 E).ne.symm
  have h1 : (1 - orb.e * Real.cos E) ≠ 0 := (newton_divisor_pos he0 he1 E).ne.symm
  have ha0 : orb.a ≠ 0 := ha.ne.symm
  unfold perifocalVx0 perifocalVy0 perifocalX0 perifocalY0
  generalize Real.sqrt (mu / (orb.a * (1 - orb.e * orb.e))) = k at hkβ ⊢
  generalize Real.sqrt (mu / (orb.a * orb.a * orb.a)) = n at hkβ ⊢
  generalize Real.sqrt (1 - orb.e * orb.e) = β at hβ hkβ ⊢
  constructor
  · rw [div_left_inj' hR]
    linear_combination (- (orb.a * Real.sin E)) * hkβ
  · rw [eq_div_iff hR]
    unfold perifocalR
    field_simp
    linear_combination (orb.a * Real.cos E * (1 - orb.e * Real.cos E) * β) * hkβ
      - (k * orb.a * Real.cos E * (1 - orb.e * Real.cos E)) * hβ
      + (orb.e * orb.a * Real.cos E ^ 2 * β) * hkβ
      - (orb.e * orb.a * Real.cos E ^ 2 * k) * hβ

/-- For `0 ≤ e < 1` the radicand `1 - e²` is positive. -/
theorem one_sub_sq_pos {e : ℝ} (he0 : 0 ≤ e) (he1 : e < 1) : 0 < 1 - e * e := by
  nlinarith

/-- The elements recomputed from a generated state: `a`, `e` and `i` are the
original ones, and the three angles are `atan2` values of scaled sine and cosine
pairs of the original angles. -/
theorem CoorVol2OrbElem_body {mu : ℝ} {orb : OrbElem} (hmu : 0 < mu) (ha : 0 < orb.a)
    (he0 : 0 < orb.e) (he1 : orb.e < 1) (hi0 : 0 ≤ orb.i) (hi1 : orb.i ≤ Real.pi) (E : ℝ) :
    CoorVol2OrbElem mu (OrbElem2CoorVolBody mu orb E) =
      { a := orb.a, e := orb.e, i := orb.i,
        Omega := atan2
          (Real.sqrt (mu * orb.a * (1 - orb.e * orb.e)) * Real.sin orb.i * Real.sin orb.Omega)
          (Real.sqrt (mu * orb.a * (1 - orb.e * orb.e)) * Real.sin orb.i * Real.cos orb.Omega),
        omega := atan2 (Real.sin orb.i * Real.sin orb.omega) (Real.sin orb.i * Real.cos orb.omega),
        M := atan2 (Real.sin E) (Real.cos E) - orb.e * Real.sin E } := by
  have Fr := body_radius ha he0.le he1 mu E
  have Fv := body_vel_sq hmu ha he0.le he1 E
  obtain ⟨FHx, FHy, FHz⟩ := body_cross ha he0.le he1 mu E
  have Fh := body_cross_sq hmu ha he0.le he1 E
  have Fd := body_dot ha he0.le he1 mu E
  obtain ⟨-, -, Fz, -, -, Fvz⟩ := OrbElem2CoorVolBody_fields mu orb E
  obtain ⟨FVx, FVy⟩ := perifocal_vel_mean_motion hmu ha he0.le he1 E
  have hmom := sqrt_moment hmu ha he0.le he1
  have hkβ := sqrt_mu_mean_motion hmu ha he0.le he1
  have hβ := sqrt_one_sub_sq he0.le he1
  have hcs := Real.sin_sq_add_cos_sq E
  have hRpos := perifocalR_pos ha he0.le he1 E
  have hR : perifocalR orb E ≠ 0 := hRpos.ne.symm
  have ha0 : orb.a ≠ 0 := ha.ne.symm
  have he0' : orb.e ≠ 0 := he0.ne.symm
  have hmu0 : mu ≠ 0 := hmu.ne.symm
  have h1e : 0 < 1 - orb.e * orb.e := one_sub_sq_pos he0.le he1
  have hβpos : 0 < Real.sqrt (1 - orb.e * orb.e) := Real.sqrt_pos.mpr h1e
  have hnpos : 0 < Real.sqrt (mu / (orb.a * orb.a * orb.a)) :=
    Real.sqrt_pos.mpr (div_pos hmu (by positivity))
  have hHpos : 0 < Real.sqrt (mu * orb.a * (1 - orb.e * orb.e)) :=
    Real.sqrt_pos.mpr (by positivity)
  rw [← hmom] at FHx FHy FHz
  generalize OrbElem2CoorVolBody mu orb E = c at Fr Fv FHx FHy FHz Fh Fd Fz Fvz ⊢
  simp only [CoorVol2OrbElem]
  have hvnn : 0 ≤ c.vx * c.vx + c.vy * c.vy + c.vz * c.vz :=
    add_nonneg (add_nonneg (mul_self_nonneg _) (mul_self_nonneg _)) (mul_self_nonneg _)
  have ha' : 1 / (2 / perifocalR orb E - mu * (2 / perifocalR orb E - 1 / orb.a) / mu)
      = orb.a := by
    have hden : 2 / perifocalR orb E - mu * (2 / perifocalR orb E - 1 / orb.a) / mu
        = 1 / orb.a := by
      field_simp
      ring
    rw [hden, one_div_one_div]
  have hh : Real.sqrt (mu * orb.a * (1 - orb.e * orb.e))
      * Real.sqrt (mu * orb.a * (1 - orb.e * orb.e)) = mu * orb.a * (1 - orb.e * orb.e) :=
    Real.mul_self_sqrt (by positivity)
  have he' : Real.sqrt (1 - mu * orb.a * (1 - orb.e * orb.e) / mu / orb.a) = orb.e := by
    have : 1 - mu * orb.a * (1 - orb.e * orb.e) / mu / orb.a = orb.e * orb.e := by
      field_simp
    rw [this, Real.sqrt_mul_self he0.le]
  have hcosE : (1 - perifocalR orb E / orb.a) / orb.e = Real.cos E := by
    unfold perifocalR
    field_simp
  have hsinE : Real.sqrt (mu / (orb.a * (1 - orb.e * orb.e))) * perifocalY0 orb E * orb.e
      / (orb.a * orb.a * Real.sqrt (mu / (orb.a * orb.a * orb.a)) * orb.e) = Real.sin E := by
    unfold perifocalY0
    rw [div_eq_iff (by positivity)]
    linear_combination (orb.a * Real.sin E * orb.e) * hkβ
  rw [Fr, Real.mul_self_sqrt hvnn, Fv, Fh, ha', hh, he', hcosE, Fd, hsinE, sin_atan2_unit,
    cos_atan2_unit, FHx, FHy, FHz, Fz, Fvz, FVx, FVy]
  rw [OrbElem.mk.injEq]
  refine ⟨rfl, rfl, ?_, ?_, ?_, rfl⟩
  · rw [mul_div_cancel_left₀ _ hHpos.ne.symm]
    exact Real.arccos_cos hi0 hi1
  · congr 1 <;> ring
  · have hβ2 : Real.sqrt (1 - orb.e * orb.e) ^ 2 = 1 - orb.e ^ 2 := by
      rw [pow_two, pow_two]; exact hβ
    have hs2 : Real.sin E ^ 2 = 1 - Real.cos E ^ 2 := by linarith
    have h1 : (1 - orb.e * Real.cos E) ≠ 0 := (newton_divisor_pos he0.le he1 E).ne.symm
    congr 1
    · unfold perifocalX0 perifocalY0 perifocalR
      field_simp
      ring_nf
      simp only [hs2]
      ring
    · unfold perifocalX0 perifocalY0 perifocalR
      field_simp
      ring_nf
      simp only [hs2]
      ring
/-- The mean anomaly returned by `CoorVol2OrbElem` is computed from its local `E`
and its result `e` (line 57). -/
theorem CoorVol2OrbElem_M (mu : ℝ) (coor : CoorVol) :
    (CoorVol2OrbElem mu coor).M
      = eccentricAnomalyOf mu coor
        - (CoorVol2OrbElem mu coor).e * Real.sin (eccentricAnomalyOf mu coor) := rfl

/-- The eccentric anomaly recomputed from a generated state is the `atan2` value of
the sine and cosine of the one the state was generated with. -/
theorem eccentricAnomalyOf_body {mu : ℝ} {orb : OrbElem} (hmu : 0 < mu) (ha : 0 < orb.a)
    (he0 : 0 < orb.e) (he1 : orb.e < 1) (E : ℝ) :
    eccentricAnomalyOf mu (OrbElem2CoorVolBody mu orb E)
      = atan2 (Real.sin E) (Real.cos E) := by
  have Fr := body_radius ha he0.le he1 mu E
  have Fv := body_vel_sq hmu ha he0.le he1 E
  have Fh := body_cross_sq hmu ha he0.le he1 E
  have Fd := body_dot ha he0.le he1 mu E
  have hkβ := sqrt_mu_mean_motion hmu ha he0.le he1
  have hRpos := perifocalR_pos ha he0.le he1 E
  have hR : perifocalR orb E ≠ 0 := hRpos.ne.symm
  have ha0 : orb.a ≠ 0 := ha.ne.symm
  have he0' : orb.e ≠ 0 := he0.ne.symm
  have hmu0 : mu ≠ 0 := hmu.ne.symm
  have h1e : 0 < 1 - orb.e * orb.e := one_sub_sq_pos he0.le he1
  have hnpos : 0 < Real.sqrt (mu / (orb.a * orb.a * orb.a)) :=
    Real.sqrt_pos.mpr (div_pos hmu (by positivity))
  generalize OrbElem2CoorVolBody mu orb E = c at Fr Fv Fh Fd ⊢
  simp only [eccentricAnomalyOf]
  have hvnn : 0 ≤ c.vx * c.vx + c.vy * c.vy + c.vz * c.vz :=
    add_nonneg (add_nonneg (mul_self_nonneg _) (mul_self_nonneg _)) (mul_self_nonneg _)
  have ha' : 1 / (2 / perifocalR orb E - mu * (2 / perifocalR orb E - 1 / orb.a) / mu)
      = orb.a := by
    have hden : 2 / perifocalR orb E - mu * (2 / perifocalR orb E - 1 / orb.a) / mu
        = 1 / orb.a := by
      field_simp
      ring
    rw [hden, one_div_one_div]
  have hh : Real.sqrt (mu * orb.a * (1 - orb.e * orb.e))
      * Real.sqrt (mu * orb.a * (1 - orb.e * orb.e)) = mu * orb.a * (1 - orb.e * orb.e) :=
    Real.mul_self_sqrt (by positivity)
  have he' : Real.sqrt (1 - mu * orb.a * (1 - orb.e * orb.e) / mu / orb.a) = orb.e := by
    have : 1 - mu * orb.a * (1 - orb.e * orb.e) / mu / orb.a = orb.e * orb.e := by
      field_simp
    rw [this, Real.sqrt_mul_self he0.le]
  have hcosE : (1 - perifocalR orb E / orb.a) / orb.e = Real.cos E := by
    unfold perifocalR
    field_simp
  have hsinE : Real.sqrt (mu / (orb.a * (1 - orb.e * orb.e))) * perifocalY0 orb E * orb.e
      / (orb.a * orb.a * Real.sqrt (mu / (orb.a * orb.a * orb.a)) * orb.e) = Real.sin E := by
    unfold perifocalY0
    rw [div_eq_iff (by positivity)]
    linear_combination (orb.a * Real.sin E * orb.e) * hkβ
  rw [Fr, Real.mul_self_sqrt hvnn, Fv, Fh, ha', hh, he', hcosE, Fd, hsinE]

/-! ## Locals and domain of the inverse conversion -/

/-- Arithmetic behind the eccentricity radicand. -/
theorem radicand_arith {mu r w s : ℝ} (hmu : 0 < mu) (hr : 0 < r)
    (hq : 0 < 2 / r - w / mu) (hs0 : 0 ≤ s) (hs : s ≤ r * r * w) :
    0 ≤ 1 - s / mu / (1 / (2 / r - w / mu)) ∧ 1 - s / mu / (1 / (2 / r - w / mu)) ≤ 1 ∧
      (s ≠ 0 → 1 - s / mu / (1 / (2 / r - w / mu)) < 1) := by
  have hform : ∀ q : ℝ, q ≠ 0 → s / mu / (1 / q) = s * q / mu := by
    intro q hq0
    field_simp
  rw [hform _ hq.ne.symm]
  have h1 : s * (2 / r - w / mu) ≤ r * r * w * (2 / r - w / mu) :=
    mul_le_mul_of_nonneg_right hs hq.le
  have h2 : r * r * w * (2 / r - w / mu) = mu - (mu - r * w) ^ 2 / mu := by
    field_simp
    ring
  have h3 : 0 ≤ (mu - r * w) ^ 2 / mu := div_nonneg (sq_nonneg _) hmu.le
  have h4 : s * (2 / r - w / mu) ≤ mu := by linarith
  have h5 : 0 ≤ s * (2 / r - w / mu) := mul_nonneg hs0 hq.le
  refine ⟨?_, ?_, ?_⟩
  · have : s * (2 / r - w / mu) / mu ≤ 1 := (div_le_one hmu).mpr h4
    linarith
  · have : 0 ≤ s * (2 / r - w / mu) / mu := div_nonneg h5 hmu.le
    linarith
  · intro hne
    have hspos : 0 < s := lt_of_le_of_ne hs0 (Ne.symm hne)
    have : 0 < s * (2 / r - w / mu) / mu := div_pos (mul_pos hspos hq) hmu
    linarith

/-- The squares of the locals `r`, `v` and `h`. -/
theorem state_squares (coor : CoorVol) :
    stateR coor * stateR coor = coor.x * coor.x + coor.y * coor.y + coor.z * coor.z ∧
    stateV coor * stateV coor = coor.vx * coor.vx + coor.vy * coor.vy + coor.vz * coor.vz ∧
    stateH coor * stateH coor
      = stateHx coor * stateHx coor + stateHy coor * stateHy coor
        + stateHz coor * stateHz coor :=
  ⟨Real.mul_self_sqrt
      (add_nonneg (add_nonneg (mul_self_nonneg _) (mul_self_nonneg _)) (mul_self_nonneg _)),
    Real.mul_self_sqrt
      (add_nonneg (add_nonneg (mul_self_nonneg _) (mul_self_nonneg _)) (mul_self_nonneg _)),
    Real.mul_self_sqrt
      (add_nonneg (add_nonneg (mul_self_nonneg _) (mul_self_nonneg _)) (mul_self_nonneg _))⟩

/-- The identity of Lagrange: `h² = r² v² - (position · velocity)²`. -/
theorem state_lagrange (coor : CoorVol) :
    stateH coor * stateH coor
      = stateR coor * stateR coor * (stateV coor * stateV coor)
        - stateDot coor * stateDot coor := by
  obtain ⟨hr, hv, hh⟩ := state_squares coor
  rw [hr, hv, hh]
  unfold stateHx stateHy stateHz stateDot
  ring

/-- For a bound orbit the eccentricity radicand lies in `[0, 1]`, and below `1` when
the angular momentum is not zero. -/
theorem stateRadicand_bounds {mu : ℝ} {coor : CoorVol} (hmu : 0 < mu) (hr : 0 < stateR coor)
    (hq : 0 < 2 / stateR coor - stateV coor * stateV coor / mu) :
    0 ≤ stateRadicand mu coor ∧ stateRadicand mu coor ≤ 1 ∧
      (stateH coor ≠ 0 → stateRadicand mu coor < 1) := by
  have hL := state_lagrange coor
  have hs0 : 0 ≤ stateH coor * stateH coor := mul_self_nonneg _
  have hs : stateH coor * stateH coor ≤ stateR coor * stateR coor * (stateV coor * stateV coor) := by
    have : 0 ≤ stateDot coor * stateDot coor := mul_self_nonneg _
    linarith
  obtain ⟨h1, h2, h3⟩ := radicand_arith hmu hr hq hs0 hs
  unfold stateRadicand stateA
  exact ⟨h1, h2, fun hne => h3 (mul_self_ne_zero.mpr hne)⟩

/-- For a bound orbit the computed eccentricity lies in `[0, 1]`, and below `1` when
the angular momentum is not zero. -/
theorem stateE_bounds {mu : ℝ} {coor : CoorVol} (hmu : 0 < mu) (hr : 0 < stateR coor)
    (hq : 0 < 2 / stateR coor - stateV coor * stateV coor / mu) :
    0 ≤ stateE mu coor ∧ stateE mu coor ≤ 1 ∧ (stateH coor ≠ 0 → stateE mu coor < 1) := by
  obtain ⟨h1, h2, h3⟩ := stateRadicand_bounds hmu hr hq
  unfold stateE
  refine ⟨Real.sqrt_nonneg _, ?_, ?_⟩
  · have := Real.sqrt_le_sqrt h2
    rwa [Real.sqrt_one] at this
  · intro hne
    have := Real.sqrt_lt_sqrt h1 (h3 hne)
    rwa [Real.sqrt_one] at this


/-- The results and the local `E` of `CoorVol2OrbElem` in terms of its named locals. -/
theorem CoorVol2OrbElem_locals (mu : ℝ) (coor : CoorVol) :
    (CoorVol2OrbElem mu coor).a = stateA mu coor ∧
    (CoorVol2OrbElem mu coor).e = stateE mu coor ∧
    (CoorVol2OrbElem mu coor).i = Real.arccos (stateHz coor / stateH coor) ∧
    (CoorVol2OrbElem mu coor).Omega = atan2 (stateHx coor) (- stateHy coor) ∧
    (CoorVol2OrbElem mu coor).M
      = eccentricAnomalyOf mu coor - stateE mu coor * Real.sin (eccentricAnomalyOf mu coor) ∧
    eccentricAnomalyOf mu coor
      = atan2 (stateDot coor
                / (stateA mu coor * stateA mu coor * stateN mu coor * stateE mu coor))
          ((1 - stateR coor / stateA mu coor) / stateE mu coor) :=
  ⟨rfl, rfl, rfl, rfl, rfl, rfl⟩

/-- For a bound orbit the computed semimajor axis and mean motion are positive. -/
theorem stateA_stateN_pos {mu : ℝ} {coor : CoorVol} (hmu : 0 < mu)
    (hq : 0 < 2 / stateR coor - stateV coor * stateV coor / mu) :
    0 < stateA mu coor ∧ 0 < stateN mu coor := by
  have ha : 0 < stateA mu coor := by
    unfold stateA
    exact one_div_pos.mpr hq
  refine ⟨ha, ?_⟩
  unfold stateN
  exact Real.sqrt_pos.mpr (div_pos hmu (mul_pos (mul_pos ha ha) ha))

/-- Where a divisor is zero, the checked function returns nothing. -/
theorem CoorVol2OrbElemChecked_of_not_defined {mu : ℝ} {coor : CoorVol}
    (h : ¬ CoorVol2OrbElemDefined mu coor) :
    CoorVol2OrbElemChecked mu coor = none := by
  unfold CoorVol2OrbElemChecked
  exact if_neg h

/-- The locals of `CoorVol2OrbElem` at the circular state of radius `1` and speed
`1` with `mu = 1`. -/
theorem circular_state_locals :
    stateR ⟨1, 0, 0, 0, 1, 0⟩ = 1 ∧ stateV ⟨1, 0, 0, 0, 1, 0⟩ = 1 ∧
    stateA 1 ⟨1, 0, 0, 0, 1, 0⟩ = 1 ∧ stateN 1 ⟨1, 0, 0, 0, 1, 0⟩ = 1 ∧
    stateH ⟨1, 0, 0, 0, 1, 0⟩ = 1 ∧ stateE 1 ⟨1, 0, 0, 0, 1, 0⟩ = 0 ∧
    stateDot ⟨1, 0, 0, 0, 1, 0⟩ = 0 := by
  have hR : stateR ⟨1, 0, 0, 0, 1, 0⟩ = 1 := by
    unfold stateR; norm_num
  have hV : stateV ⟨1, 0, 0, 0, 1, 0⟩ = 1 := by
    unfold stateV; norm_num
  have hA : stateA 1 ⟨1, 0, 0, 0, 1, 0⟩ = 1 := by
    unfold stateA; rw [hR, hV]; norm_num
  have hN : stateN 1 ⟨1, 0, 0, 0, 1, 0⟩ = 1 := by
    unfold stateN; rw [hA]; norm_num
  have hH : stateH ⟨1, 0, 0, 0, 1, 0⟩ = 1 := by
    unfold stateH stateHx stateHy stateHz; norm_num
  have hE : stateE 1 ⟨1, 0, 0, 0, 1, 0⟩ = 0 := by
    unfold stateE stateRadicand; rw [hH, hA]; norm_num
  exact ⟨hR, hV, hA, hN, hH, hE, by unfold stateDot; norm_num⟩

/-- For a circular state the computed semimajor axis is the radius and the
eccentricity radicand is zero. -/
theorem circular_state {mu : ℝ} {coor : CoorVol} (hmu : 0 < mu) (hr : 0 < stateR coor)
    (hdot : stateDot coor = 0) (hv : stateV coor * stateV coor = mu / stateR coor) :
    stateA mu coor = stateR coor ∧ stateRadicand mu coor = 0 := by
  have hL := state_lagrange coor
  have hr0 : stateR coor ≠ 0 := hr.ne.symm
  have hmu0 : mu ≠ 0 := hmu.ne.symm
  have hA : stateA mu coor = stateR coor := by
    have hden : 2 / stateR coor - mu / stateR coor / mu = 1 / stateR coor := by
      field_simp
      ring
    unfold stateA
    rw [hv, hden, one_div_one_div]
  refine ⟨hA, ?_⟩
  unfold stateRadicand
  rw [hA, hL, hv, hdot]
  field_simp
  ring

/-- With nonzero angular momentum, `Hz / h` reaches `1` or `-1` exactly when
`Hx = Hy = 0`. -/
theorem stateHz_div_extreme {coor : CoorVol} (hh : 0 < stateH coor) :
    (1 ≤ stateHz coor / stateH coor ∨ stateHz coor / stateH coor ≤ -1) ↔
      (stateHx coor = 0 ∧ stateHy coor = 0) := by
  obtain ⟨-, -, hsq⟩ := state_squares coor
  have key : stateH coor ≤ |stateHz coor| ↔ (stateHx coor = 0 ∧ stateHy coor = 0) := by
    constructor
    · intro hle
      have h2 : stateH coor * stateH coor ≤ |stateHz coor| * |stateHz coor| :=
        mul_self_le_mul_self hh.le hle
      rw [abs_mul_abs_self, hsq] at h2
      have hx := mul_self_nonneg (stateHx coor)
      have hy := mul_self_nonneg (stateHy coor)
      have hx0 : stateHx coor * stateHx coor = 0 := by linarith
      have hy0 : stateHy coor * stateHy coor = 0 := by linarith
      exact ⟨mul_self_eq_zero.mp hx0, mul_self_eq_zero.mp hy0⟩
    · rintro ⟨hx, hy⟩
      have : stateH coor = |stateHz coor| := by
        unfold stateH
        rw [hx, hy, mul_zero, zero_add, zero_add, Real.sqrt_mul_self_eq_abs]
      exact this.le
  rw [← key, le_div_iff₀ hh, div_le_iff₀ hh, one_mul]
  constructor
  · rintro (h | h)
    · exact h.trans (le_abs_self _)
    · have : stateH coor ≤ - stateHz coor := by linarith
      exact this.trans (neg_le_abs _)
  · intro h
    rcases le_abs'.mp h with h1 | h1
    · right; linarith
    · left; exact h1

/-! ## Symmetry of the solver -/

/-- The Newton update is odd in the pair (mean anomaly, iterate). -/
theorem newtonStep_neg (M e E0 : ℝ) : newtonStep (-M) e (-E0) = - newtonStep M e E0 := by
  unfold newtonStep
  rw [Real.sin_neg, Real.cos_neg]
  ring

/-- The loop for `-M` entered at `-E0` mirrors the loop for `M` entered at `E0`. -/
theorem SolveKeplerLoop_neg (fuel : ℕ) (M e E0 : ℝ) :
    SolveKeplerLoop fuel (-M) e (-E0) = (SolveKeplerLoop fuel M e E0).map (fun E => -E) := by
  induction fuel generalizing E0 with
  | zero => rfl
  | succ k ih =>
    rw [SolveKeplerLoop_succ, SolveKeplerLoop_succ, newtonStep_neg]
    have habs : |(- newtonStep M e E0) - (-E0)| = |newtonStep M e E0 - E0| := by
      rw [← abs_neg]; congr 1; ring
    rw [habs]
    by_cases hc : |newtonStep M e E0 - E0| > 1e-12
    · rw [if_pos hc, if_pos hc]
      exact ih _
    · rw [if_neg hc, if_neg hc]
      rfl

/-- The Newton iterates for `-M` are the negatives of those for `M`. -/
theorem newtonStep_iterate_neg (M e : ℝ) (n : ℕ) :
    (newtonStep (-M) e)^[n] 0 = - (newtonStep M e)^[n] 0 := by
  induction n with
  | zero => simp
  | succ k ih =>
    rw [Function.iterate_succ_apply', Function.iterate_succ_apply', ih, newtonStep_neg]

/-! ## The rotation matrix -/

/-- The rotation about z is orthogonal with determinant `1`. -/
theorem specRotationZ_orthogonal (θ : ℝ) :
    (specRotationZ θ).transpose * specRotationZ θ = 1 ∧
    specRotationZ θ * (specRotationZ θ).transpose = 1 ∧ (specRotationZ θ).det = 1 := by
  have h := Real.sin_sq_add_cos_sq θ
  refine ⟨?_, ?_, ?_⟩
  · ext i j
    rw [Matrix.mul_apply, Fin.sum_univ_three]
    simp only [Matrix.transpose_apply]
    fin_cases i <;> fin_cases j <;> simp [specRotationZ, Matrix.vecHead, Matrix.vecTail] <;>
      first | ring1 | linear_combination h
  · ext i j
    rw [Matrix.mul_apply, Fin.sum_univ_three]
    simp only [Matrix.transpose_apply]
    fin_cases i <;> fin_cases j <;> simp [specRotationZ, Matrix.vecHead, Matrix.vecTail] <;>
      first | ring1 | linear_combination h
  · rw [Matrix.det_fin_three]
    simp [specRotationZ, Matrix.vecHead, Matrix.vecTail]
    linear_combination h

/-- The rotation about x is orthogonal with determinant `1`. -/
theorem specRotationX_orthogonal (θ : ℝ) :
    (specRotationX θ).transpose * specRotationX θ = 1 ∧
    specRotationX θ * (specRotationX θ).transpose = 1 ∧ (specRotationX θ).det = 1 := by
  have h := Real.sin_sq_add_cos_sq θ
  refine ⟨?_, ?_, ?_⟩
  · ext i j
    rw [Matrix.mul_apply, Fin.sum_univ_three]
    simp only [Matrix.transpose_apply]
    fin_cases i <;> fin_cases j <;> simp [specRotationX, Matrix.vecHead, Matrix.vecTail] <;>
      first | ring1 | linear_combination h
  · ext i j
    rw [Matrix.mul_apply, Fin.sum_univ_three]
    simp only [Matrix.transpose_apply]
    fin_cases i <;> fin_cases j <;> simp [specRotationX, Matrix.vecHead, Matrix.vecTail] <;>
      first | ring1 | linear_combination h
  · rw [Matrix.det_fin_three]
    simp [specRotationX, Matrix.vecHead, Matrix.vecTail]
    linear_combination h

/-- The matrix of lines 94 to 98 is the product of the three Euler rotations. -/
theorem rotationT_eq_spec (orb : OrbElem) :
    rotationT orb = specEulerRotation orb.Omega orb.i orb.omega := by
  unfold specEulerRotation
  ext i j
  rw [Matrix.mul_apply, Fin.sum_univ_three]
  simp only [Matrix.mul_apply, Fin.sum_univ_three]
  fin_cases i <;> fin_cases j <;> simp [rotationT, specRotationZ, specRotationX, Matrix.vecHead, Matrix.vecTail] <;> ring

/-- A product of three matrices, each orthogonal with determinant `1`, is orthogonal
with determinant `1`. -/
theorem orthogonal_mul_three (A B C : Matrix (Fin 3) (Fin 3) ℝ)
    (hA : A.transpose * A = 1 ∧ A * A.transpose = 1 ∧ A.det = 1)
    (hB : B.transpose * B = 1 ∧ B * B.transpose = 1 ∧ B.det = 1)
    (hC : C.transpose * C = 1 ∧ C * C.transpose = 1 ∧ C.det = 1) :
    (A * B * C).transpose * (A * B * C) = 1 ∧ (A * B * C) * (A * B * C).transpose = 1 ∧
      (A * B * C).det = 1 := by
  refine ⟨?_, ?_, ?_⟩
  · rw [Matrix.transpose_mul, Matrix.transpose_mul]
    calc C.transpose * (B.transpose * A.transpose) * (A * B * C)
        = C.transpose * (B.transpose * (A.transpose * A) * B) * C := by
          simp only [Matrix.mul_assoc]
      _ = 1 := by rw [hA.1, Matrix.mul_one, hB.1, Matrix.mul_one, hC.1]
  · rw [Matrix.transpose_mul, Matrix.transpose_mul]
    calc A * B * C * (C.transpose * (B.transpose * A.transpose))
        = A * (B * (C * C.transpose) * B.transpose) * A.transpose := by
          simp only [Matrix.mul_assoc]
      _ = 1 := by rw [hC.2.1, Matrix.mul_one, hB.2.1, Matrix.mul_one, hA.2.1]
  · rw [Matrix.det_mul, Matrix.det_mul, hA.2.2, hB.2.2, hC.2.2]
    norm_num

/-- The generated position and velocity are the matrix `t` applied to the vectors
`(x0, y0, 0)` and `(vx0, vy0, 0)` of the orbital plane. -/
theorem OrbElem2CoorVolBody_mulVec (mu : ℝ) (orb : OrbElem) (E : ℝ) :
    ![(OrbElem2CoorVolBody mu orb E).x, (OrbElem2CoorVolBody mu orb E).y,
        (OrbElem2CoorVolBody mu orb E).z]
      = (rotationT orb).mulVec ![perifocalX0 orb E, perifocalY0 orb E, 0] ∧
    ![(OrbElem2CoorVolBody mu orb E).vx, (OrbElem2CoorVolBody mu orb E).vy,
        (OrbElem2CoorVolBody mu orb E).vz]
      = (rotationT orb).mulVec ![perifocalVx0 mu orb E, perifocalVy0 mu orb E, 0] := by
  obtain ⟨hx, hy, hz, hvx, hvy, hvz⟩ := OrbElem2CoorVolBody_fields mu orb E
  constructor
  · ext k
    fin_cases k <;>
      simp [Matrix.mulVec, Matrix.dotProduct, Fin.sum_univ_three, rotationT, hx, hy, hz]
  · ext k
    fin_cases k <;>
      simp [Matrix.mulVec, Matrix.dotProduct, Fin.sum_univ_three, rotationT, hvx, hvy, hvz]

/-! ## Exact-real statements outside the settled claims -/

/-- Round trip of the shape elements in exact real arithmetic: for `mu > 0`, `a > 0`,
`0 < e < 1` and `0 < i < π`, whenever the exact-real `OrbElem2CoorVol` returns a state,
the exact-real `CoorVol2OrbElem` of that state has exactly the semimajor axis,
eccentricity and inclination of the original record.  No tolerance for the
double-precision results follows from this. -/
theorem exact_round_trip_shape (fuel : ℕ) (mu : ℝ) (orb : OrbElem) (coor : CoorVol)
    (hmu : 0 < mu) (ha : 0 < orb.a) (he0 : 0 < orb.e) (he1 : orb.e < 1)
    (hi0 : 0 < orb.i) (hi1 : orb.i < Real.pi)
    (h : OrbElem2CoorVol fuel mu orb = some coor) :
    (CoorVol2OrbElem mu coor).a = orb.a ∧ (CoorVol2OrbElem mu coor).e = orb.e ∧
      (CoorVol2OrbElem mu coor).i = orb.i := by
  obtain ⟨E, -, hc⟩ := OrbElem2CoorVol_some h
  rw [hc, CoorVol2OrbElem_body hmu ha he0 he1 hi0.le hi1.le E]
  exact ⟨rfl, rfl, rfl⟩

/-- Round trip of the orientation angles in exact real arithmetic: for `mu > 0`,
`a > 0`, `0 < e < 1` and `0 < i < π`, the `Omega` and `omega` recomputed by the
exact-real `CoorVol2OrbElem` each differ from the original ones by an integer
multiple of `2π`, and equal them when the originals lie in `(-π, π]`. -/
theorem exact_round_trip_angles (fuel : ℕ) (mu : ℝ) (orb : OrbElem) (coor : CoorVol)
    (hmu : 0 < mu) (ha : 0 < orb.a) (he0 : 0 < orb.e) (he1 : orb.e < 1)
    (hi0 : 0 < orb.i) (hi1 : orb.i < Real.pi)
    (h : OrbElem2CoorVol fuel mu orb = some coor) :
    (∃ k : ℤ, (CoorVol2OrbElem mu coor).Omega = orb.Omega + 2 * Real.pi * k) ∧
    (∃ k : ℤ, (CoorVol2OrbElem mu coor).omega = orb.omega + 2 * Real.pi * k) ∧
    (-Real.pi < orb.Omega → orb.Omega ≤ Real.pi →
      (CoorVol2OrbElem mu coor).Omega = orb.Omega) ∧
    (-Real.pi < orb.omega → orb.omega ≤ Real.pi →
      (CoorVol2OrbElem mu coor).omega = orb.omega) := by
  obtain ⟨E, -, hc⟩ := OrbElem2CoorVol_some h
  have hsi : 0 < Real.sin orb.i := Real.sin_pos_of_pos_of_lt_pi hi0 hi1
  have hH : 0 < Real.sqrt (mu * orb.a * (1 - orb.e * orb.e)) :=
    Real.sqrt_pos.mpr (mul_pos (mul_pos hmu ha) (one_sub_sq_pos he0.le he1))
  rw [hc, CoorVol2OrbElem_body hmu ha he0 he1 hi0.le hi1.le E]
  exact ⟨atan2_scaled (mul_pos hH hsi) orb.Omega, atan2_scaled hsi orb.omega,
    fun h0 h1 => atan2_scaled_of_mem (mul_pos hH hsi) h0 h1,
    fun h0 h1 => atan2_scaled_of_mem hsi h0 h1⟩

/-- Round trip of the mean anomaly in exact real arithmetic: for `mu > 0`, `a > 0`,
`0 < e < 1` and `0 < i < π`, when the exact-real solver returns `E`, the recomputed
eccentric anomaly is `E` up to a multiple of `2π`, the recomputed mean anomaly is
`E - e sin E` up to a multiple of `2π`, and it differs from the original `M` by a
multiple of `2π` plus an error smaller than `1e-6`. -/
theorem exact_round_trip_mean_anomaly (fuel : ℕ) (mu : ℝ) (orb : OrbElem) (E : ℝ)
    (hmu : 0 < mu) (ha : 0 < orb.a) (he0 : 0 < orb.e) (he1 : orb.e < 1)
    (hi0 : 0 < orb.i) (hi1 : orb.i < Real.pi)
    (h : SolveKepler fuel orb.M orb.e = some E) :
    ∃ coor : CoorVol, OrbElem2CoorVol fuel mu orb = some coor ∧
      ∃ k : ℤ, eccentricAnomalyOf mu coor = E + 2 * Real.pi * k ∧
        (CoorVol2OrbElem mu coor).M = E - orb.e * Real.sin E + 2 * Real.pi * k ∧
        |(CoorVol2OrbElem mu coor).M - (orb.M + 2 * Real.pi * k)| < 1e-6 := by
  refine ⟨OrbElem2CoorVolBody mu orb E, ?_, ?_⟩
  · unfold OrbElem2CoorVol
    rw [h]
  · obtain ⟨k, hk⟩ := atan2_unit E
    have hM : (CoorVol2OrbElem mu (OrbElem2CoorVolBody mu orb E)).M
        = E - orb.e * Real.sin E + 2 * Real.pi * k := by
      rw [CoorVol2OrbElem_body hmu ha he0 he1 hi0.le hi1.le E]
      show atan2 (Real.sin E) (Real.cos E) - orb.e * Real.sin E = _
      rw [hk]
      ring
    refine ⟨k, ?_, hM, ?_⟩
    · rw [eccentricAnomalyOf_body hmu ha he0 he1 E, hk]
    · have hres : |keplerResidual orb.M orb.e E| ≤ orb.e * 1e-24 :=
        keplerResidual_of_returns he0.le he1 h
      have heq : (CoorVol2OrbElem mu (OrbElem2CoorVolBody mu orb E)).M
          - (orb.M + 2 * Real.pi * k) = keplerResidual orb.M orb.e E := by
        rw [hM]
        unfold keplerResidual
        ring
      rw [heq]
      refine lt_of_le_of_lt hres ?_
      have : orb.e * 1e-24 ≤ 1 * 1e-24 := mul_le_mul_of_nonneg_right he1.le (by norm_num)
      refine lt_of_le_of_lt this ?_
      norm_num

/-- Angular momentum in exact real arithmetic: for `mu > 0`, `a > 0` and `0 ≤ e < 1`,
every state returned by the exact-real `OrbElem2CoorVol` has
`|position × velocity| = √(mu a (1 - e²))`.  No tolerance for the double-precision
state follows from this as `e` approaches `1`. -/
theorem exact_angular_momentum (fuel : ℕ) (mu : ℝ) (orb : OrbElem) (coor : CoorVol)
    (hmu : 0 < mu) (ha : 0 < orb.a) (he0 : 0 ≤ orb.e) (he1 : orb.e < 1)
    (h : OrbElem2CoorVol fuel mu orb = some coor) :
    Real.sqrt ((coor.y * coor.vz - coor.z * coor.vy) * (coor.y * coor.vz - coor.z * coor.vy)
        + (coor.z * coor.vx - coor.x * coor.vz) * (coor.z * coor.vx - coor.x * coor.vz)
        + (coor.x * coor.vy - coor.y * coor.vx) * (coor.x * coor.vy - coor.y * coor.vx))
      = Real.sqrt (mu * orb.a * (1 - orb.e * orb.e)) := by
  obtain ⟨E, -, hc⟩ := OrbElem2CoorVol_some h
  rw [hc, body_cross_sq hmu ha he0 he1]

/-- Circular-orbit limit in exact real arithmetic: for every real `M` and every `e` in
`[0, 1)`, whatever the exact-real solver returns is within `e * (1 + 1e-24)` of `M`,
and for `e < 1/3` the exact-real solver does return. -/
theorem exact_circular_limit (M e : ℝ) (he0 : 0 ≤ e) (he1 : e < 1) :
    (∀ (fuel : ℕ) (E : ℝ), SolveKepler fuel M e = some E → |E - M| ≤ e * (1 + 1e-24)) ∧
      (e < 1 / 3 → ∃ fuel : ℕ, ∃ E : ℝ, SolveKepler fuel M e = some E) := by
  refine ⟨?_, fun h3 => SolveKeplerLoop_terminates he0 h3 0⟩
  intro fuel E h
  have hres : |keplerResidual M e E| ≤ e * 1e-24 := keplerResidual_of_returns he0 he1 h
  have hsin : |e * Real.sin E| ≤ e := by
    rw [abs_mul, abs_of_nonneg he0]
    exact mul_le_of_le_one_right he0 (Real.abs_sin_le_one E)
  have hsplit : E - M = keplerResidual M e E + e * Real.sin E := by
    unfold keplerResidual; ring
  rw [hsplit]
  refine (abs_add _ _).trans ?_
  linarith

/-- Circular states in exact real arithmetic: for `mu > 0` and a state with position
and velocity orthogonal, `v² = mu / r` and `r > 0`, the exact eccentricity is `0`, so
the exact divisors `e` and `a² n e` of step 6 and both numerators are zero. -/
theorem exact_circular_eccentricity (mu : ℝ) (coor : CoorVol) (hmu : 0 < mu)
    (hr : 0 < stateR coor) (hdot : stateDot coor = 0)
    (hv : stateV coor * stateV coor = mu / stateR coor) :
    (CoorVol2OrbElem mu coor).e = 0 ∧ stateE mu coor = 0 ∧
    stateA mu coor * stateA mu coor * stateN mu coor * stateE mu coor = 0 ∧
    1 - stateR coor / stateA mu coor = 0 ∧ stateDot coor = 0 ∧
    CoorVol2OrbElemChecked mu coor = none := by
  obtain ⟨hA, hrad⟩ := circular_state hmu hr hdot hv
  have hE : stateE mu coor = 0 := by
    unfold stateE
    rw [hrad, Real.sqrt_zero]
  refine ⟨hE, hE, ?_, ?_, hdot, ?_⟩
  · rw [hE, mul_zero]
  · rw [hA, div_self hr.ne.symm, sub_self]
  · apply CoorVol2OrbElemChecked_of_not_defined
    intro hdef
    exact hdef.2.2.2.2.2.2.2.1 hE

/-- Equatorial states in exact real arithmetic: with `h > 0`, the exact inclination
`acos (Hz / h)` is `0` or `π` if and only if `Hx = Hy = 0`, and then both arguments
of `atan2 (Hx, -Hy)` are zero. -/
theorem exact_equatorial_inclination (mu : ℝ) (coor : CoorVol) (hh : 0 < stateH coor) :
    (((CoorVol2OrbElem mu coor).i = 0 ∨ (CoorVol2OrbElem mu coor).i = Real.pi) ↔
      (stateHx coor = 0 ∧ stateHy coor = 0)) ∧
    ((CoorVol2OrbElem mu coor).i = 0 ∨ (CoorVol2OrbElem mu coor).i = Real.pi →
      stateHx coor = 0 ∧ - stateHy coor = 0) ∧
    (CoorVol2OrbElem mu coor).i = Real.arccos (stateHz coor / stateH coor) ∧
    (CoorVol2OrbElem mu coor).Omega = atan2 (stateHx coor) (- stateHy coor) := by
  obtain ⟨-, -, hi, hO, -, -⟩ := CoorVol2OrbElem_locals mu coor
  have hiff : ((CoorVol2OrbElem mu coor).i = 0 ∨ (CoorVol2OrbElem mu coor).i = Real.pi) ↔
      (stateHx coor = 0 ∧ stateHy coor = 0) := by
    rw [hi, Real.arccos_eq_zero, Real.arccos_eq_pi]
    exact stateHz_div_extreme hh
  refine ⟨hiff, ?_, hi, hO⟩
  intro h
  obtain ⟨hx, hy⟩ := hiff.mp h
  exact ⟨hx, by rw [hy, neg_zero]⟩

/-- Eccentricity radicand in exact real arithmetic: for `mu > 0`, `r > 0` and
`2/r - v²/mu > 0`, the exact `a` is positive, the exact radicand `1 - h²/mu/a` lies
in `[0, 1]`, hence the exact `e` lies in `[0, 1]`, and `e < 1` when `h` is not zero. -/
theorem exact_radicand_bounds (mu : ℝ) (coor : CoorVol) (hmu : 0 < mu) (hr : 0 < stateR coor)
    (hq : 0 < 2 / stateR coor - stateV coor * stateV coor / mu) :
    0 < stateA mu coor ∧
    (0 ≤ stateRadicand mu coor ∧ stateRadicand mu coor ≤ 1) ∧
    (CoorVol2OrbElem mu coor).e = Real.sqrt (stateRadicand mu coor) ∧
    (0 ≤ (CoorVol2OrbElem mu coor).e ∧ (CoorVol2OrbElem mu coor).e ≤ 1) ∧
    (stateH coor ≠ 0 → (CoorVol2OrbElem mu coor).e < 1) := by
  obtain ⟨h1, h2, -⟩ := stateRadicand_bounds hmu hr hq
  obtain ⟨h4, h5, h6⟩ := stateE_bounds hmu hr hq
  exact ⟨(stateA_stateN_pos hmu hq).1, ⟨h1, h2⟩, rfl, ⟨h4, h5⟩, h6⟩

/-! ## The claims -/

/-- C1. Kepler solver correctness: for `M` in `[0, 2π)` and `e` in `[0, 0.9]`,
whenever `SolveKepler (M, e)` returns a value `E`, that value satisfies
`|E - e sin E - M| < 1e-10`. -/
theorem C1_SolveKepler_residual (fuel : ℕ) (M e E : ℝ) (_hM0 : 0 ≤ M) (_hM1 : M < 2 * Real.pi)
    (he0 : 0 ≤ e) (he1 : e ≤ 0.9) (h : SolveKepler fuel M e = some E) :
    |E - e * Real.sin E - M| < 1e-10 := by
  have he : e < 1 := lt_of_le_of_lt he1 (by norm_num)
  have hres : |keplerResidual M e E| ≤ e * 1e-24 := keplerResidual_of_returns he0 he h
  unfold keplerResidual at hres
  refine lt_of_le_of_lt hres ?_
  have : e * 1e-24 ≤ 0.9 * 1e-24 := mul_le_mul_of_nonneg_right he1 (by norm_num)
  refine lt_of_le_of_lt this ?_
  norm_num

/-- Witness for C1 at `M = 1`, `e = 1/4`: the solver returns there, and what it
returns meets the bound. -/
theorem C1_SolveKepler_residual_witness :
    ∃ fuel : ℕ, ∃ E : ℝ, SolveKepler fuel 1 (1 / 4) = some E ∧
      |E - 1 / 4 * Real.sin E - 1| < 1e-10 := by
  obtain ⟨fuel, E, hE⟩ :=
    SolveKeplerLoop_terminates (M := 1) (e := 1 / 4) (by norm_num) (by norm_num) 0
  refine ⟨fuel, E, hE, ?_⟩
  exact C1_SolveKepler_residual fuel 1 (1 / 4) E (by norm_num)
    (by linarith [Real.pi_gt_three]) (by norm_num) (by norm_num) hE

/-- C6. Vis-viva consistency: for `mu > 0`, `a > 0` and `0 ≤ e < 1`, every state
returned by `OrbElem2CoorVol` satisfies `v² = mu (2/r - 1/a)`, with `r` the length of
the position and `v²` the squared length of the velocity. -/
theorem C6_vis_viva (fuel : ℕ) (mu : ℝ) (orb : OrbElem) (coor : CoorVol) (hmu : 0 < mu)
    (ha : 0 < orb.a) (he0 : 0 ≤ orb.e) (he1 : orb.e < 1)
    (h : OrbElem2CoorVol fuel mu orb = some coor) :
    coor.vx * coor.vx + coor.vy * coor.vy + coor.vz * coor.vz
      = mu * (2 / Real.sqrt (coor.x * coor.x + coor.y * coor.y + coor.z * coor.z)
          - 1 / orb.a) := by
  obtain ⟨E, -, hc⟩ := OrbElem2CoorVol_some h
  rw [hc, body_radius ha he0 he1, body_vel_sq hmu ha he0 he1]

/-- Witness for C6 at the generic orbit of the specification (`a = 7000000`,
`e = 0.1`, `i = 0.5`, `Omega = 1`, `omega = 0.5`, `M = 1`, `mu = 3.986e14`): the
conversion returns a state, and that state satisfies the vis-viva equation. -/
theorem C6_vis_viva_witness :
    ∃ fuel : ℕ, ∃ coor : CoorVol,
      OrbElem2CoorVol fuel 3.986e14 ⟨7000000, 0.1, 0.5, 1, 0.5, 1⟩ = some coor ∧
      coor.vx * coor.vx + coor.vy * coor.vy + coor.vz * coor.vz
        = 3.986e14 * (2 / Real.sqrt (coor.x * coor.x + coor.y * coor.y + coor.z * coor.z)
            - 1 / 7000000) := by
  obtain ⟨fuel, coor, hc⟩ := OrbElem2CoorVol_returns 3.986e14
    ⟨7000000, 0.1, 0.5, 1, 0.5, 1⟩ (by norm_num) (by norm_num)
  exact ⟨fuel, coor, hc, C6_vis_viva fuel 3.986e14 ⟨7000000, 0.1, 0.5, 1, 0.5, 1⟩ coor
    (by norm_num) (by norm_num) (by norm_num) (by norm_num) hc⟩

/-- C8. Periapsis scenario: for `0 ≤ e < 1` the solver at `M = 0` stops after one
pass and returns exactly `0`; hence for `M = 0` and `a > 0` the conversion returns a
state whose position has length `a (1 - e)`, whatever `i`, `Omega` and `omega` are;
and for `a = 6778000`, `e = 0.01`, `i = 0.9006`, `Omega = omega = 0`,
`mu = 3.986004418e14` the position is `(6710220, 0, 0)`. -/
theorem C8_periapsis :
    (∀ e : ℝ, 0 ≤ e → e < 1 → SolveKepler 1 0 e = some 0) ∧
    (∀ (mu : ℝ) (orb : OrbElem), 0 < orb.a → 0 ≤ orb.e → orb.e < 1 → orb.M = 0 →
      ∃ coor : CoorVol, OrbElem2CoorVol 1 mu orb = some coor ∧
        Real.sqrt (coor.x * coor.x + coor.y * coor.y + coor.z * coor.z)
          = orb.a * (1 - orb.e)) ∧
    (∃ coor : CoorVol,
      OrbElem2CoorVol 1 3.986004418e14 ⟨6778000, 0.01, 0.9006, 0, 0, 0⟩ = some coor ∧
        coor.x = 6710220 ∧ coor.y = 0 ∧ coor.z = 0) := by
  refine ⟨fun e _ _ => SolveKeplerLoop_periapsis e 0, ?_, ?_⟩
  · intro mu orb ha he0 he1 hM
    refine ⟨OrbElem2CoorVolBody mu orb 0, ?_, ?_⟩
    · unfold OrbElem2CoorVol SolveKepler
      rw [hM, SolveKeplerLoop_periapsis orb.e 0]
    · rw [body_radius ha he0 he1]
      unfold perifocalR
      rw [Real.cos_zero, mul_one]
  · refine ⟨OrbElem2CoorVolBody 3.986004418e14 ⟨6778000, 0.01, 0.9006, 0, 0, 0⟩ 0, ?_, ?_⟩
    · unfold OrbElem2CoorVol SolveKepler
      rw [SolveKeplerLoop_periapsis (0.01 : ℝ) 0]
    · obtain ⟨hx, hy, hz, -, -, -⟩ :=
        OrbElem2CoorVolBody_fields 3.986004418e14 ⟨6778000, 0.01, 0.9006, 0, 0, 0⟩ 0
      rw [hx, hy, hz]
      simp only [perifocalX0, perifocalY0, Real.sin_zero, Real.cos_zero]
      norm_num

/-- Witness for C8 at `e = 1/2`, `a = 2`, `i = 1`, `Omega = 2`, `omega = 3`,
`mu = 1`: the solver returns `0` and the position has length `2 * (1 - 1/2)`. -/
theorem C8_periapsis_witness :
    SolveKepler 1 0 (1 / 2) = some 0 ∧
      ∃ coor : CoorVol, OrbElem2CoorVol 1 1 ⟨2, 1 / 2, 1, 2, 3, 0⟩ = some coor ∧
        Real.sqrt (coor.x * coor.x + coor.y * coor.y + coor.z * coor.z)
          = 2 * (1 - 1 / 2) :=
  ⟨C8_periapsis.1 (1 / 2) (by norm_num) (by norm_num),
    C8_periapsis.2.1 1 ⟨2, 1 / 2, 1, 2, 3, 0⟩ (by norm_num) (by norm_num) (by norm_num) rfl⟩

/-- C9. Circular case of the solver: for every real `M`, with `e = 0` the first
iterate computed from `E = 0` is already `M`, and `SolveKepler (M, 0)` returns
exactly `M` (two passes of the loop are enough). -/
theorem C9_SolveKepler_circular (M : ℝ) :
    newtonStep M 0 0 = M ∧ ∀ k : ℕ, SolveKepler (k + 2) M 0 = some M :=
  ⟨newtonStep_circular M 0, fun k => SolveKeplerLoop_circular M 0 k⟩

/-- C12. The two conversions are not a strict inverse pair: for the valid record
`a = 7000000`, `e = 0.1`, `i = 0.5`, `Omega = 4`, `omega = 0.5`, `M = 0` with
`mu = 3.986e14`, whose `Omega` lies in `[0, 2π)`, the forward conversion returns a
state and `CoorVol2OrbElem` of that state has `Omega = 4 - 2π`, which is not `4`. -/
theorem C12_not_inverse :
    (0 : ℝ) ≤ 4 ∧ (4 : ℝ) < 2 * Real.pi ∧
    ∃ coor : CoorVol,
      OrbElem2CoorVol 1 3.986e14 ⟨7000000, 0.1, 0.5, 4, 0.5, 0⟩ = some coor ∧
      (CoorVol2OrbElem 3.986e14 coor).Omega = 4 - 2 * Real.pi ∧
      (CoorVol2OrbElem 3.986e14 coor).Omega ≠ 4 := by
  have hpi3 : (3 : ℝ) < Real.pi := Real.pi_gt_three
  have hpi4 : Real.pi < 4 := lt_of_lt_of_le Real.pi_lt_d2 (by norm_num)
  have hi0 : (0 : ℝ) < 0.5 := by norm_num
  have hi1 : (0.5 : ℝ) < Real.pi := lt_trans (by norm_num) hpi3
  have hmu : (0 : ℝ) < 3.986e14 := by norm_num
  have ha : (0 : ℝ) < 7000000 := by norm_num
  have he0 : (0 : ℝ) < 0.1 := by norm_num
  have he1 : (0.1 : ℝ) < 1 := by norm_num
  have hsi : 0 < Real.sin (0.5 : ℝ) := Real.sin_pos_of_pos_of_lt_pi hi0 hi1
  have hH : 0 < Real.sqrt (3.986e14 * 7000000 * (1 - 0.1 * 0.1)) :=
    Real.sqrt_pos.mpr (by norm_num)
  have hOmega : (CoorVol2OrbElem 3.986e14
      (OrbElem2CoorVolBody 3.986e14 ⟨7000000, 0.1, 0.5, 4, 0.5, 0⟩ 0)).Omega
        = 4 - 2 * Real.pi := by
    rw [@CoorVol2OrbElem_body 3.986e14 ⟨7000000, 0.1, 0.5, 4, 0.5, 0⟩ hmu ha he0 he1 hi0.le
      hi1.le 0]
    show atan2 (Real.sqrt (3.986e14 * 7000000 * (1 - 0.1 * 0.1)) * Real.sin 0.5 * Real.sin 4)
      (Real.sqrt (3.986e14 * 7000000 * (1 - 0.1 * 0.1)) * Real.sin 0.5 * Real.cos 4) = _
    rw [← Real.sin_sub_two_pi 4, ← Real.cos_sub_two_pi 4]
    exact atan2_scaled_of_mem (mul_pos hH hsi) (by linarith) (by linarith)
  refine ⟨by norm_num, by linarith,
    OrbElem2CoorVolBody 3.986e14 ⟨7000000, 0.1, 0.5, 4, 0.5, 0⟩ 0, ?_, hOmega, ?_⟩
  · unfold OrbElem2CoorVol SolveKepler
    rw [SolveKeplerLoop_periapsis (0.1 : ℝ) 0]
  · rw [hOmega]
    intro h
    linarith

/-- C13. The matrix `t` built in `OrbElem2CoorVol` is the product
`Rz(Omega) · Rx(i) · Rz(omega)` of the three elementary Euler rotations, for all real
angles; it is orthogonal with determinant `1`; the generated position and velocity
are `t` applied to `(x0, y0, 0)` and `(vx0, vy0, 0)` and have the same Euclidean norms
as these. -/
theorem C13_rotation (orb : OrbElem) :
    rotationT orb
      = specRotationZ orb.Omega * specRotationX orb.i * specRotationZ orb.omega ∧
    (rotationT orb).transpose * rotationT orb = 1 ∧
    rotationT orb * (rotationT orb).transpose = 1 ∧
    (rotationT orb).det = 1 ∧
    ∀ mu E : ℝ,
      ![(OrbElem2CoorVolBody mu orb E).x, (OrbElem2CoorVolBody mu orb E).y,
          (OrbElem2CoorVolBody mu orb E).z]
        = (rotationT orb).mulVec ![perifocalX0 orb E, perifocalY0 orb E, 0] ∧
      ![(OrbElem2CoorVolBody mu orb E).vx, (OrbElem2CoorVolBody mu orb E).vy,
          (OrbElem2CoorVolBody mu orb E).vz]
        = (rotationT orb).mulVec ![perifocalVx0 mu orb E, perifocalVy0 mu orb E, 0] ∧
      Real.sqrt ((OrbElem2CoorVolBody mu orb E).x * (OrbElem2CoorVolBody mu orb E).x
          + (OrbElem2CoorVolBody mu orb E).y * (OrbElem2CoorVolBody mu orb E).y
          + (OrbElem2CoorVolBody mu orb E).z * (OrbElem2CoorVolBody mu orb E).z)
        = Real.sqrt (perifocalX0 orb E * perifocalX0 orb E
            + perifocalY0 orb E * perifocalY0 orb E + 0 * 0) ∧
      Real.sqrt ((OrbElem2CoorVolBody mu orb E).vx * (OrbElem2CoorVolBody mu orb E).vx
          + (OrbElem2CoorVolBody mu orb E).vy * (OrbElem2CoorVolBody mu orb E).vy
          + (OrbElem2CoorVolBody mu orb E).vz * (OrbElem2CoorVolBody mu orb E).vz)
        = Real.sqrt (perifocalVx0 mu orb E * perifocalVx0 mu orb E
            + perifocalVy0 mu orb E * perifocalVy0 mu orb E + 0 * 0) := by
  have hspec := rotationT_eq_spec orb
  have horth := orthogonal_mul_three _ _ _ (specRotationZ_orthogonal orb.Omega)
    (specRotationX_orthogonal orb.i) (specRotationZ_orthogonal orb.omega)
  unfold specEulerRotation at hspec
  rw [← hspec] at horth
  refine ⟨hspec, horth.1, horth.2.1, horth.2.2, fun mu E => ?_⟩
  obtain ⟨hx, hy, hz, hvx, hvy, hvz⟩ := OrbElem2CoorVolBody_fields mu orb E
  refine ⟨(OrbElem2CoorVolBody_mulVec mu orb E).1, (OrbElem2CoorVolBody_mulVec mu orb E).2,
    ?_, ?_⟩
  · rw [hx, hy, hz, rotation_dot, mul_zero, add_zero]
  · rw [hvx, hvy, hvz, rotation_dot, mul_zero, add_zero]

/-- C14. The divisor `r` of `OrbElem2CoorVol` cannot be zero: for `a > 0`,
`0 ≤ e < 1` and every real eccentric anomaly `E`, `r = a (1 - e cos E)` satisfies
`r ≥ a (1 - e) > 0`, and `r` is the Euclidean norm of the generated position. -/
theorem C14_radius (mu : ℝ) (orb : OrbElem) (E : ℝ) (ha : 0 < orb.a) (he0 : 0 ≤ orb.e)
    (he1 : orb.e < 1) :
    perifocalR orb E = orb.a * (1 - orb.e * Real.cos E) ∧
    orb.a * (1 - orb.e) ≤ perifocalR orb E ∧ 0 < orb.a * (1 - orb.e) ∧
    Real.sqrt ((OrbElem2CoorVolBody mu orb E).x * (OrbElem2CoorVolBody mu orb E).x
      + (OrbElem2CoorVolBody mu orb E).y * (OrbElem2CoorVolBody mu orb E).y
      + (OrbElem2CoorVolBody mu orb E).z * (OrbElem2CoorVolBody mu orb E).z)
      = perifocalR orb E := by
  refine ⟨rfl, ?_, mul_pos ha (by linarith), body_radius ha he0 he1 mu E⟩
  unfold perifocalR
  apply mul_le_mul_of_nonneg_left _ ha.le
  have hc : Real.cos E ≤ 1 := Real.cos_le_one E
  have := mul_le_mul_of_nonneg_left hc he0
  linarith

/-- Witness for C14 at `a = 2`, `e = 1/2`, `i = 1`, `Omega = 2`, `omega = 3`,
`E = π`, `mu = 1`. -/
theorem C14_radius_witness :
    perifocalR ⟨2, 1 / 2, 1, 2, 3, 0⟩ Real.pi = 2 * (1 - 1 / 2 * Real.cos Real.pi) ∧
    2 * (1 - 1 / 2) ≤ perifocalR ⟨2, 1 / 2, 1, 2, 3, 0⟩ Real.pi ∧
    (0 : ℝ) < 2 * (1 - 1 / 2) ∧
    Real.sqrt ((OrbElem2CoorVolBody 1 ⟨2, 1 / 2, 1, 2, 3, 0⟩ Real.pi).x
        * (OrbElem2CoorVolBody 1 ⟨2, 1 / 2, 1, 2, 3, 0⟩ Real.pi).x
      + (OrbElem2CoorVolBody 1 ⟨2, 1 / 2, 1, 2, 3, 0⟩ Real.pi).y
        * (OrbElem2CoorVolBody 1 ⟨2, 1 / 2, 1, 2, 3, 0⟩ Real.pi).y
      + (OrbElem2CoorVolBody 1 ⟨2, 1 / 2, 1, 2, 3, 0⟩ Real.pi).z
        * (OrbElem2CoorVolBody 1 ⟨2, 1 / 2, 1, 2, 3, 0⟩ Real.pi).z)
      = perifocalR ⟨2, 1 / 2, 1, 2, 3, 0⟩ Real.pi :=
  C14_radius 1 ⟨2, 1 / 2, 1, 2, 3, 0⟩ Real.pi (by norm_num) (by norm_num) (by norm_num)

/-- C15 fails as stated: at `mu = 1` the circular state with position `(1, 0, 0)` and
velocity `(0, 1, 0)` has `r = 1 > 0`, `a = 1 > 0` and computed eccentricity `0`, and
none of the divisors of step 10 (`r`, `n`, `a`, `n a`, `√(1 - e²)`) is zero there. -/
theorem C15_counterexample :
    (0 : ℝ) < 1 ∧ 0 < stateR ⟨1, 0, 0, 0, 1, 0⟩ ∧ 0 < stateA 1 ⟨1, 0, 0, 0, 1, 0⟩ ∧
    stateE 1 ⟨1, 0, 0, 0, 1, 0⟩ = 0 ∧
    stateR ⟨1, 0, 0, 0, 1, 0⟩ ≠ 0 ∧ stateN 1 ⟨1, 0, 0, 0, 1, 0⟩ ≠ 0 ∧
    stateA 1 ⟨1, 0, 0, 0, 1, 0⟩ ≠ 0 ∧
    stateN 1 ⟨1, 0, 0, 0, 1, 0⟩ * stateA 1 ⟨1, 0, 0, 0, 1, 0⟩ ≠ 0 ∧
    Real.sqrt (1 - stateE 1 ⟨1, 0, 0, 0, 1, 0⟩ * stateE 1 ⟨1, 0, 0, 0, 1, 0⟩) ≠ 0 := by
  obtain ⟨hR, -, hA, hN, -, hE, -⟩ := circular_state_locals
  rw [hR, hA, hN, hE]
  norm_num

/-- C15, amended. Circular orbits and the argument of periapsis in exact real
arithmetic: for a state vector whose exact eccentricity is `e = 0` (with `r > 0`,
`a > 0`, `mu > 0`), none of the exact divisors used in the expressions for `Pz` and
`Qz` (`r`, `n`, `a`, `n a`, `√(1 - e²)`) is zero, so step 10 of `CoorVol2OrbElem`
does not itself divide by zero.  Overflow of `a * a * a` in doubles is outside this
statement. -/
theorem C15_step10_divisors (mu : ℝ) (coor : CoorVol) (hmu : 0 < mu) (hr : 0 < stateR coor)
    (ha : 0 < stateA mu coor) (he : stateE mu coor = 0) :
    stateR coor ≠ 0 ∧ stateN mu coor ≠ 0 ∧ stateA mu coor ≠ 0 ∧
    stateN mu coor * stateA mu coor ≠ 0 ∧
    Real.sqrt (1 - stateE mu coor * stateE mu coor) ≠ 0 := by
  have hn : 0 < stateN mu coor := by
    unfold stateN
    exact Real.sqrt_pos.mpr (div_pos hmu (mul_pos (mul_pos ha ha) ha))
  refine ⟨hr.ne.symm, hn.ne.symm, ha.ne.symm, (mul_pos hn ha).ne.symm, ?_⟩
  rw [he]
  norm_num

/-- Witness for the amended C15 at `mu = 1`, position `(1, 0, 0)`, velocity
`(0, 1, 0)`, a circular state with `r = 1`, `a = 1` and `e = 0`. -/
theorem C15_step10_divisors_witness :
    stateR ⟨1, 0, 0, 0, 1, 0⟩ ≠ 0 ∧ stateN 1 ⟨1, 0, 0, 0, 1, 0⟩ ≠ 0 ∧
    stateA 1 ⟨1, 0, 0, 0, 1, 0⟩ ≠ 0 ∧
    stateN 1 ⟨1, 0, 0, 0, 1, 0⟩ * stateA 1 ⟨1, 0, 0, 0, 1, 0⟩ ≠ 0 ∧
    Real.sqrt (1 - stateE 1 ⟨1, 0, 0, 0, 1, 0⟩ * stateE 1 ⟨1, 0, 0, 0, 1, 0⟩) ≠ 0 := by
  obtain ⟨hR, -, hA, -, -, hE, -⟩ := circular_state_locals
  exact C15_step10_divisors 1 ⟨1, 0, 0, 0, 1, 0⟩ one_pos (by rw [hR]; exact one_pos)
    (by rw [hA]; exact one_pos) hE

/-- C19. Odd symmetry of the solver: for every real `M` and every `e`, the Newton
iterates of `SolveKepler` for `-M` are the negatives of the iterates for `M`, so for
every iteration budget `SolveKepler (-M, e)` returns exactly when `SolveKepler (M, e)`
does, and then returns the negative of its value. -/
theorem C19_SolveKepler_odd (M e : ℝ) :
    (∀ n : ℕ, (newtonStep (-M) e)^[n] 0 = - (newtonStep M e)^[n] 0) ∧
    (∀ fuel : ℕ, SolveKepler fuel (-M) e = (SolveKepler fuel M e).map (fun E => -E)) := by
  refine ⟨newtonStep_iterate_neg M e, fun fuel => ?_⟩
  have h := SolveKeplerLoop_neg fuel M e 0
  rwa [neg_zero] at h

/-- C20. The Newton step of `SolveKepler` never divides by zero on valid input: for
`0 ≤ e < 1` and every real iterate `E0`, the divisor `1 - e cos E0` of line 23
satisfies `1 - e cos E0 ≥ 1 - e > 0`; for `e = 1` the divisor is zero already at the
first iteration (`E0 = 0`). -/
theorem C20_divisor :
    (∀ e E0 : ℝ, 0 ≤ e → e < 1 → 1 - e ≤ newtonDivisor e E0 ∧ 0 < 1 - e) ∧
    (∀ M e E0 : ℝ, newtonStep M e E0
      = E0 - (E0 - e * Real.sin E0 - M) / newtonDivisor e E0) ∧
    newtonDivisor 1 0 = 0 := by
  refine ⟨?_, fun _ _ _ => rfl, ?_⟩
  · intro e E0 he0 he1
    unfold newtonDivisor
    have hc : Real.cos E0 ≤ 1 := Real.cos_le_one E0
    have := mul_le_mul_of_nonneg_left hc he0
    constructor <;> linarith
  · unfold newtonDivisor
    rw [Real.cos_zero]
    ring

/-- Witness for C20 at `e = 1/2`, `E0 = π`. -/
theorem C20_divisor_witness :
    1 - (1 / 2 : ℝ) ≤ newtonDivisor (1 / 2) Real.pi ∧ (0 : ℝ) < 1 - 1 / 2 :=
  C20_divisor.1 (1 / 2) Real.pi (by norm_num) (by norm_num)

end CelestialMechanics
